import Mathlib

/-
Verification development for the botho cluster-tax simulation scripts.

The Python sources under scripts/ are shallowly embedded here:

* tag vectors (Python `Dict[int, int]`, cluster id -> weight) are modelled as
  association lists `List (Nat × Nat)`; dict reads go through `.get(c, 0)`
  in the source and through `getTag` here, and dict equality is key/value
  equality, expressed through `List.lookup`;
* Python `int` arithmetic is `Int` (with `Int.fdiv` for Python's floor
  division `//`) or `Nat` where the source values are provably non-negative
  and the two agree;
* Python `float` arithmetic is modelled exactly over `ℚ` (and over `ℝ` for
  the sigmoid fee curve, which calls `math.exp`); at every concrete input
  used in a theorem below the binary-float rounding of the source does not
  change any compared integer or branch, which was checked against the
  scripts by hand;
* in-place mutation becomes explicit state passing: a Python function that
  mutates a simulation state and returns a bool becomes a Lean function
  returning `Bool × State`.
-/

set_option maxHeartbeats 1000000

/-- Fixed-point scale for tag weights: `TAG_SCALE = 1_000_000` in
`gini_account_model.py` and `gini_utxo_model.py`. -/
def TAG_SCALE : Nat := 1000000

/-- A provenance tag vector: sparse map from cluster id to fixed-point
weight (`Dict[int, int]` in the scripts). -/
abbrev Tags := List (Nat × Nat)

/-- `tags.get(c, 0)` of the Python sources. -/
def getTag (tags : Tags) (c : Nat) : Nat :=
  (List.lookup c tags).getD 0

/-- Key list of a tag dictionary. -/
def tagKeys (tags : Tags) : List Nat :=
  tags.map Prod.fst

/-- Sum of the explicit weights of a tag vector (`sum(tags.values())`). -/
def sumW (tags : Tags) : Nat :=
  (tags.map Prod.snd).sum

/-- Python `int(x)` on a rational: truncation toward zero. -/
def pyInt (q : ℚ) : ℤ :=
  if 0 ≤ q then ⌊q⌋ else -⌊-q⌋

/-- Upsert-add on a rational-weighted association list: the
`d[c] = d.get(c, 0) + x` pattern used by `blend_tags`,
`compute_effective_wealth`, `compute_cluster_wealth` and the receiver-side
mixing of gini_cluster_model.py.  Keeps CPython dict insertion order. -/
def addW : List (Nat × ℚ) → Nat → ℚ → List (Nat × ℚ)
  | [], c, x => [(c, x)]
  | p :: rest, c, x => if p.1 = c then (p.1, p.2 + x) :: rest else p :: addW rest c x

namespace AccountModel

/- gini_account_model.py (account-based model, integer amounts). -/

/-- `TAG_PRUNE_THRESHOLD = 100` in gini_account_model.py. -/
def TAG_PRUNE_THRESHOLD : Nat := 100

/-- `apply_decay(tags, decay_rate)` of gini_account_model.py: per entry,
`new_weight = weight - weight * decay_rate // TAG_SCALE`, kept only when
`new_weight >= TAG_PRUNE_THRESHOLD`.  Weights and the decay rate are
non-negative in every call site, so `Nat` arithmetic coincides with the
source's Python-int arithmetic (a Python-negative `new_weight` is below the
positive threshold and dropped, exactly like the truncated `Nat` value). -/
def apply_decay (tags : Tags) (decay_rate : Nat) : Tags :=
  tags.filterMap fun p =>
    let decay_amount := p.2 * decay_rate / TAG_SCALE
    let new_weight := p.2 - decay_amount
    if TAG_PRUNE_THRESHOLD ≤ new_weight then some (p.1, new_weight) else none

/-- `mix_tags(self_tags, self_value, incoming_tags, incoming_value)` of
gini_account_model.py.  Values are Python ints (`Int`); the weighted
average uses Python floor division, `Int.fdiv`.  A kept weight is at least
the positive threshold, so storing it as `Nat` (`Int.toNat`) is lossless.
Python iterates the key set union in unspecified dict order; the embedding
iterates first keys of `self_tags`, then new keys of `incoming_tags`, which
is one admissible order and is compared only through `List.lookup`. -/
def mix_tags (self_tags : Tags) (self_value : ℤ)
    (incoming_tags : Tags) (incoming_value : ℤ) : Tags :=
  let total_value := self_value + incoming_value
  if total_value = 0 then [] else
  let all_clusters := (tagKeys self_tags ++ tagKeys incoming_tags).dedup
  all_clusters.filterMap fun c =>
    let self_weight : ℤ := getTag self_tags c
    let incoming_weight : ℤ := getTag incoming_tags c
    let new_weight : ℤ :=
      Int.fdiv (self_value * self_weight + incoming_value * incoming_weight) total_value
    if (TAG_PRUNE_THRESHOLD : ℤ) ≤ new_weight then some (c, new_weight.toNat) else none

/-- `Account` of gini_account_model.py. -/
structure Account where
  id : Nat
  balance : ℤ
  agent_type : String
  tags : Tags
  deriving Repr, DecidableEq

/-- `ClusterWealth` of gini_account_model.py: mapping cluster id to
attributed wealth plus the fresh-id counter. -/
structure ClusterWealth where
  wealth : List (Nat × ℤ)
  next_cluster : Nat
  deriving Repr, DecidableEq

/-- Replace the first binding of `c` (or append one): the dict store
`self.wealth[cid] = v`. -/
def setWealth : List (Nat × ℤ) → Nat → ℤ → List (Nat × ℤ)
  | [], c, v => [(c, v)]
  | p :: rest, c, v => if p.1 = c then (c, v) :: rest else p :: setWealth rest c v

/-- `ClusterWealth.get`: `self.wealth.get(cluster_id, 0)`. -/
def ClusterWealth.get (s : ClusterWealth) (cluster_id : Nat) : ℤ :=
  (List.lookup cluster_id s.wealth).getD 0

/-- `ClusterWealth.new_cluster`. -/
def ClusterWealth.new_cluster (s : ClusterWealth) : Nat × ClusterWealth :=
  (s.next_cluster,
   { wealth := setWealth s.wealth s.next_cluster 0,
     next_cluster := s.next_cluster + 1 })

/-- `ClusterWealth.apply_delta`: missing ids are first initialised to 0,
then `self.wealth[cluster_id] = max(0, self.wealth[cluster_id] + delta)`. -/
def ClusterWealth.apply_delta (s : ClusterWealth) (cluster_id : Nat) (delta : ℤ) : ClusterWealth :=
  { s with wealth := setWealth s.wealth cluster_id (max 0 (s.get cluster_id + delta)) }

/-- An operation on the cluster ledger, for sequences of `new_cluster` and
`apply_delta` calls. -/
inductive LedgerOp where
  | newCluster : LedgerOp
  | applyDelta (cluster_id : Nat) (delta : ℤ) : LedgerOp
  deriving Repr

/-- Run a sequence of ledger operations from a state. -/
def runLedger (s : ClusterWealth) : List LedgerOp → ClusterWealth
  | [] => s
  | LedgerOp.newCluster :: rest => runLedger (s.new_cluster).2 rest
  | LedgerOp.applyDelta c d :: rest => runLedger (s.apply_delta c d) rest

/-- The empty ledger (`ClusterWealth.__init__`). -/
def emptyLedger : ClusterWealth := { wealth := [], next_cluster := 0 }

end AccountModel

/-- Per-entry decay step shared (up to the prune threshold `T`) by
`apply_decay` in gini_account_model.py (`T = 100`) and gini_utxo_model.py
(`T = 1000`). -/
def decayF (T d : Nat) (p : Nat × Nat) : Option (Nat × Nat) :=
  let decay_amount := p.2 * d / TAG_SCALE
  let new_weight := p.2 - decay_amount
  if T ≤ new_weight then some (p.1, new_weight) else none

namespace UtxoModel

/- gini_utxo_model.py (UTXO-based model, float amounts, modelled over ℚ). -/

/-- `TAG_PRUNE_THRESHOLD = 1000` in gini_utxo_model.py. -/
def TAG_PRUNE_THRESHOLD : Nat := 1000

/-- `apply_decay(tags, decay_rate)` of gini_utxo_model.py: identical to the
account-model decay, with prune threshold 1000. -/
def apply_decay (tags : Tags) (decay_rate : Nat) : Tags :=
  tags.filterMap fun p =>
    let decayed := p.2 - p.2 * decay_rate / TAG_SCALE
    if TAG_PRUNE_THRESHOLD ≤ decayed then some (p.1, decayed) else none

/-- `blend_tags(inputs)` of gini_utxo_model.py: value-weighted average of
the input tag vectors over floats (here ℚ), truncated to int weights and
pruned at 1000. -/
def blend_tags (inputs : List (ℚ × Tags)) : Tags :=
  let total_value := (inputs.map Prod.fst).sum
  if total_value = 0 then [] else
  let blended := inputs.foldl (fun acc vt =>
    let weight := vt.1 / total_value
    vt.2.foldl (fun a cw => addW a cw.1 ((cw.2 : ℚ) * weight)) acc) []
  blended.filterMap fun p =>
    let int_weight := pyInt p.2
    if (TAG_PRUNE_THRESHOLD : ℤ) ≤ int_weight then some (p.1, int_weight.toNat) else none

/-- `UTXO` of gini_utxo_model.py. -/
structure UTXO where
  id : Nat
  value : ℚ
  tags : Tags
  owner : Nat
  deriving Repr, DecidableEq

/-- The `fee_config` object as used by `transfer`: the `r_max_bps` field
(first-pass fee estimate) and the `rate_bps` method.  The sigmoid instance
of `rate_bps` is analysed separately over ℝ (`SigmoidCurve`); a flat curve
(`r_min_bps == r_max_bps`), which the source computes without touching
`math.exp`, is represented exactly by a constant function. -/
structure FeeCurve where
  r_max_bps : ℚ
  rate_bps : ℚ → ℚ

/-- The fields of `SimState`/`UTXOSet` of gini_utxo_model.py that
`transfer` reads or writes.  The owner index `by_owner` is represented by
filtering `utxos` on the owner field, which is observationally the set of
UTXO ids the index holds. -/
structure SimState where
  utxos : List UTXO
  next_id : Nat
  next_cluster : Nat
  initial_cluster_wealth : List (Nat × ℚ)
  decay_rate : Nat
  fee_config : FeeCurve
  total_fees : ℚ

/-- `UTXOSet.create_utxo`. -/
def createUTXO (s : SimState) (value : ℚ) (tags : Tags) (owner : Nat) : SimState :=
  { s with utxos := s.utxos ++ [{ id := s.next_id, value := value, tags := tags, owner := owner }],
           next_id := s.next_id + 1 }

/-- `UTXOSet.spend_utxo`: delete the entry with the given id. -/
def spendUTXO (s : SimState) (utxo_id : Nat) : SimState :=
  { s with utxos := s.utxos.filter fun u => u.id ≠ utxo_id }

/-- Total value of a list of UTXOs. -/
def totalValue (utxos : List UTXO) : ℚ :=
  (utxos.map UTXO.value).sum

/-- Stable insertion of a UTXO into a list sorted by descending value:
`sorted(..., key=lambda u: -u.value)` is a stable descending sort. -/
def insertDesc (u : UTXO) : List UTXO → List UTXO
  | [] => [u]
  | v :: rest => if v.value ≤ u.value then u :: v :: rest else v :: insertDesc u rest

/-- Stable descending-by-value sort. -/
def sortDesc : List UTXO → List UTXO
  | [] => []
  | u :: rest => insertDesc u (sortDesc rest)

/-- `compute_effective_wealth(utxos, initial_cluster_wealth)` of
gini_utxo_model.py: blend the input tags (as fractions) and take the
maximum of `tag_weight * initial_cluster_wealth[cluster]` over the clusters
recorded in the snapshot. -/
def compute_effective_wealth (utxos : List UTXO) (icw : List (Nat × ℚ)) : ℚ :=
  if utxos = [] then 0 else
  let total_value := totalValue utxos
  if total_value = 0 then 0 else
  let blended := utxos.foldl (fun acc u =>
    u.tags.foldl (fun a cw => addW a cw.1 ((u.value / total_value) * ((cw.2 : ℚ) / TAG_SCALE))) acc) []
  blended.foldl (fun m p =>
    match List.lookup p.1 icw with
    | some w => max m (p.2 * w)
    | none => m) 0

/-- First selection pass of `transfer`: walk the descending-sorted sender
UTXOs, accumulating values, stopping as soon as the estimated total is
covered.  Returns the selected list and its value. -/
def selectGreedy : List UTXO → ℚ → ℚ → List UTXO × ℚ
  | [], _, acc => ([], acc)
  | u :: rest, target, acc =>
    let acc' := acc + u.value
    if target ≤ acc' then ([u], acc')
    else
      let r := selectGreedy rest target acc'
      (u :: r.1, r.2)

/-- Second selection pass of `transfer`: add remaining UTXOs one at a time,
recomputing effective wealth, rate, fee and required total after each
addition, stopping as soon as the selection covers the requirement.  The
running tuple is `(selected, selected_value, fee, total_needed)`. -/
def addMore (icw : List (Nat × ℚ)) (rate_bps : ℚ → ℚ) (amount : ℚ) :
    List UTXO → List UTXO × ℚ × ℚ × ℚ → List UTXO × ℚ × ℚ × ℚ
  | [], st => st
  | u :: rest, st =>
    let sel' := st.1 ++ [u]
    let selval' := st.2.1 + u.value
    let ew := compute_effective_wealth sel' icw
    let fee := amount * rate_bps ew / 10000
    let needed := amount + fee
    if selval' < needed then addMore icw rate_bps amount rest (sel', selval', fee, needed)
    else (sel', selval', fee, needed)

/-- `transfer(state, sender_id, receiver_id, amount, rng)` of
gini_utxo_model.py (the `rng` argument is unused by the source).  Returns
the success flag and the updated state.  The dust threshold `0.01` is the
rational 1/100 (the float comparison agrees at every concrete input used
below). -/
def transfer (s : SimState) (sender_id receiver_id : Nat) (amount : ℚ) : Bool × SimState :=
  let sender_utxos := s.utxos.filter fun u => u.owner = sender_id
  let sender_balance := totalValue sender_utxos
  if sender_balance < amount ∨ amount ≤ 0 then (false, s) else
  let estimated_fee := amount * s.fee_config.r_max_bps / 10000
  let estimated_total := amount + estimated_fee
  let fst := selectGreedy (sortDesc sender_utxos) estimated_total 0
  if fst.1 = [] then (false, s) else
  let ew := compute_effective_wealth fst.1 s.initial_cluster_wealth
  let fee := amount * s.fee_config.rate_bps ew / 10000
  let total_needed := amount + fee
  let st :=
    if fst.2 < total_needed then
      let remaining := sender_utxos.filter fun u => ¬ u ∈ fst.1
      addMore s.initial_cluster_wealth s.fee_config.rate_bps amount (sortDesc remaining)
        (fst.1, fst.2, fee, total_needed)
    else (fst.1, fst.2, fee, total_needed)
  if st.2.1 < st.2.2.2 then (false, s) else
  let blended_tags := blend_tags (st.1.map fun u => (u.value, u.tags))
  let decayed_tags := apply_decay blended_tags s.decay_rate
  let s1 := st.1.foldl (fun acc u => spendUTXO acc u.id) s
  let s2 := createUTXO s1 amount decayed_tags receiver_id
  let change := st.2.1 - st.2.2.2
  let s3 := if 1/100 < change then createUTXO s2 change decayed_tags sender_id else s2
  (true, { s3 with total_fees := s3.total_fees + st.2.2.1 })

end UtxoModel

namespace ClusterModel

/- gini_cluster_model.py (cluster-based model, float amounts over ℚ,
float tag weights over ℚ). -/

/-- `Agent` of gini_cluster_model.py. -/
structure Agent where
  id : Nat
  balance : ℚ
  agent_type : String
  tags : List (Nat × ℚ)
  deriving Repr, DecidableEq

/-- Simulation state as read and written by `transfer`:
the agent list and the cumulative fees (the registry's `next_id` is not
touched by `transfer`). -/
structure SimState where
  agents : List Agent
  total_fees : ℚ
  deriving Repr, DecidableEq

/-- `ClusterRegistry.compute_cluster_wealth(agents)`:
`wealth[c] = sum_i agents[i].balance * agents[i].tags[c]`. -/
def compute_cluster_wealth (agents : List Agent) : List (Nat × ℚ) :=
  agents.foldl (fun acc a =>
    a.tags.foldl (fun w cw => addW w cw.1 (a.balance * cw.2)) acc) []

/-- `transfer(state, sender, receiver, amount, decay, cluster_wealth_cache)`
of gini_cluster_model.py.  Python passes agent objects; the embedding
passes their indices in `state.agents` and re-reads the receiver after the
sender update, which reproduces Python's object aliasing when
`sender = receiver`.  The fee curve object is passed as its `rate_bps`
method.  Out-of-range indices (impossible in the source, where live
objects are passed) fail without touching the state. -/
def transfer (s : SimState) (sender receiver : Nat) (amount : ℚ) (decay : ℚ)
    (cluster_wealth_cache : Option (List (Nat × ℚ))) (rate_bps : ℚ → ℚ) : Bool × SimState :=
  match s.agents.get? sender with
  | none => (false, s)
  | some sender_obj =>
    if sender_obj.balance < amount ∨ amount ≤ 0 then (false, s) else
    let cache := cluster_wealth_cache.getD (compute_cluster_wealth s.agents)
    let effective_wealth := sender_obj.tags.foldl (fun m cw =>
      match List.lookup cw.1 cache with
      | some w => max m (cw.2 * w)
      | none => m) 0
    let fee := amount * rate_bps effective_wealth / 10000
    let total_cost := amount + fee
    if sender_obj.balance < total_cost then (false, s) else
    let agents1 := s.agents.set sender { sender_obj with balance := sender_obj.balance - total_cost }
    let incoming_tags := sender_obj.tags.filterMap fun cw =>
      let decayed_weight := cw.2 * (1 - decay)
      if 1/1000 < decayed_weight then some (cw.1, decayed_weight) else none
    match agents1.get? receiver with
    | none => (false, s)
    | some rcv =>
      let old_balance := rcv.balance
      let new_balance := old_balance + amount
      let rcv' :=
        if 0 < new_balance then
          let mixed := rcv.tags.foldl (fun acc cw => addW acc cw.1 (cw.2 * (old_balance / new_balance))) []
          let mixed := incoming_tags.foldl (fun acc cw => addW acc cw.1 (cw.2 * (amount / new_balance))) mixed
          { rcv with tags := mixed.filter fun p => 1/1000 < p.2, balance := new_balance }
        else { rcv with balance := new_balance }
      (true, { agents := agents1.set receiver rcv', total_fees := s.total_fees + fee })

end ClusterModel

namespace ProvRef

/- provenance_reference.py (integer reference implementation with a single
source_wealth scalar per UTXO). -/

/-- `UTXO` of provenance_reference.py. -/
structure UTXO where
  id : Nat
  value : ℤ
  source_wealth : ℤ
  owner : String
  deriving Repr, DecidableEq

/-- `UTXOSet` of provenance_reference.py (dict id -> UTXO plus counter). -/
structure UTXOSet where
  utxos : List UTXO
  next_id : Nat
  deriving Repr, DecidableEq

/-- `UTXOSet.mint(owner, value, source_wealth)`. -/
def mint (s : UTXOSet) (owner : String) (value source_wealth : ℤ) : UTXO × UTXOSet :=
  let u : UTXO := { id := s.next_id, value := value, source_wealth := source_wealth, owner := owner }
  (u, { utxos := s.utxos ++ [u], next_id := s.next_id + 1 })

/-- Dict lookup `utxo_set.utxos[uid]`. -/
def lookupUTXO (s : UTXOSet) (uid : Nat) : Option UTXO :=
  s.utxos.find? fun u => u.id == uid

/-- `UTXOSet.spend(uid)`: remove the entry. -/
def spend (s : UTXOSet) (uid : Nat) : UTXOSet :=
  { s with utxos := s.utxos.filter fun u => u.id ≠ uid }

/-- Gather `[utxo_set.utxos[uid] for uid in input_ids]`, failing (like the
source's early `return False`) if any id is missing. -/
def gatherInputs (s : UTXOSet) : List Nat → Option (List UTXO)
  | [] => some []
  | uid :: rest =>
    (lookupUTXO s uid).bind fun u => (gatherInputs s rest).map fun l => u :: l

/-- `compute_fee_rate(source_wealth, max_wealth, r_min, r_max)` of
provenance_reference.py.  The float defaults 0.01 and 0.15 are the exact
rationals 1/100 and 3/20; at every concrete input compared in this file
the binary-float evaluation of the source yields the same truncated fee. -/
def compute_fee_rate (source_wealth max_wealth : ℤ)
    (r_min : ℚ := 1/100) (r_max : ℚ := 3/20) : ℚ :=
  if max_wealth ≤ 0 then r_min
  else r_min + (r_max - r_min) * min 1 ((source_wealth : ℚ) / (max_wealth : ℚ))

/-- `transfer(utxo_set, input_ids, outputs, max_wealth)` of
provenance_reference.py.  Returns `(success, fee_paid, new_utxos)` plus the
updated set.  All outputs inherit the value-weighted blended
`source_wealth` of the inputs (Python `//` is `Int.fdiv`). -/
def transfer (s : UTXOSet) (input_ids : List Nat) (outputs : List (String × ℤ))
    (max_wealth : ℤ) : Bool × ℤ × List UTXO × UTXOSet :=
  match gatherInputs s input_ids with
  | none => (false, 0, [], s)
  | some inputs =>
    let total_input_value := (inputs.map UTXO.value).sum
    let total_output_value := (outputs.map Prod.snd).sum
    let blended_source_wealth :=
      Int.fdiv ((inputs.map fun u => u.value * u.source_wealth).sum) total_input_value
    let fee_rate := compute_fee_rate blended_source_wealth max_wealth
    let fee := pyInt ((total_output_value : ℚ) * fee_rate)
    if total_input_value < total_output_value + fee then (false, 0, [], s) else
    let s1 := input_ids.foldl (fun acc uid => spend acc uid) s
    let res := outputs.foldl (fun (acc : List UTXO × UTXOSet) ov =>
      let m := mint acc.2 ov.1 ov.2 blended_source_wealth
      (acc.1 ++ [m.1], m.2)) ([], s1)
    (true, fee, res.1, res.2)

end ProvRef

namespace ThreeSegment

/- gini_3segment.py fee curves (floats over ℚ). -/

/-- `three_segment_fee_rate` of gini_3segment.py: flat-linear-flat curve.
Defaults are the source's float literals as exact rationals. -/
def three_segment_fee_rate (effective_wealth max_wealth : ℚ)
    (w1_frac : ℚ := 1/10) (w2_frac : ℚ := 1/2)
    (r_poor : ℚ := 1/100) (r_mid_start : ℚ := 1/50)
    (r_mid_end : ℚ := 3/25) (r_rich : ℚ := 3/20) : ℚ :=
  if max_wealth ≤ 0 then r_poor else
  let w1 := max_wealth * w1_frac
  let w2 := max_wealth * w2_frac
  if effective_wealth < w1 then r_poor
  else if effective_wealth < w2 then
    let t := (effective_wealth - w1) / (w2 - w1)
    r_mid_start + t * (r_mid_end - r_mid_start)
  else r_rich

end ThreeSegment

namespace SigmoidCurve

/- The sigmoid `FeeConfig.rate_bps` shared by gini_cluster_model.py,
gini_account_model.py and gini_utxo_model.py, over ℝ (the source computes
with floats and `math.exp`). -/

/-- `FeeConfig` of gini_cluster_model.py. -/
structure FeeConfig where
  name : String
  r_min_bps : ℝ
  r_max_bps : ℝ
  w_mid : ℝ
  steepness : ℝ

/-- The guarded sigmoid of `rate_bps`:
`1/(1+exp(-x)) if -700 < x < 700 else (0 if x < 0 else 1)`. -/
noncomputable def sigmoidClamped (x : ℝ) : ℝ :=
  if -700 < x ∧ x < 700 then 1 / (1 + Real.exp (-x)) else if x < 0 then 0 else 1

/-- `FeeConfig.rate_bps(effective_wealth)`. -/
noncomputable def FeeConfig.rate_bps (c : FeeConfig) (effective_wealth : ℝ) : ℝ :=
  if c.r_min_bps = c.r_max_bps then c.r_min_bps
  else
    let x := (effective_wealth - c.w_mid) / max c.steepness 1
    c.r_min_bps + (c.r_max_bps - c.r_min_bps) * sigmoidClamped x

end SigmoidCurve

namespace AccountModel

/-- `effective_fee_rate(account, cluster_wealth, fee_config)` of
gini_account_model.py: the MAX aggregation over the account's tags,
passed to the curve's `rate_bps` method (here a function parameter, the
method of the `fee_config` argument object). -/
def effective_fee_rate (a : Account) (cluster_wealth : ClusterWealth)
    (rate_bps : ℚ → ℚ) : ℚ :=
  rate_bps (a.tags.foldl (fun m p =>
    max m (((p.2 : ℚ) / TAG_SCALE) * (cluster_wealth.get p.1 : ℚ))) 0)

/-- Simulation state touched by the account model's transfer loop. -/
structure SimState where
  accounts : List Account
  cluster_wealth : ClusterWealth
  total_fees : ℤ

/-- `execute_transfer(sender, receiver, amount, decay_rate, fee_config,
cluster_wealth)` of gini_account_model.py.  Python passes account objects;
the embedding passes indices and re-reads the receiver after the sender
update (object aliasing).  Returns `(success, fee)` plus the state. -/
def execute_transfer (s : SimState) (sender receiver : Nat) (amount : ℤ)
    (decay_rate : Nat) (rate_bps : ℚ → ℚ) : Bool × ℤ × SimState :=
  match s.accounts.get? sender with
  | none => (false, 0, s)
  | some snd =>
    if snd.balance < amount ∨ amount ≤ 0 then (false, 0, s) else
    let fee_rate := effective_fee_rate snd s.cluster_wealth rate_bps
    let fee := pyInt ((amount : ℚ) * fee_rate / 10000)
    let net_amount := amount - fee
    let accounts1 := s.accounts.set sender { snd with balance := snd.balance - amount }
    let transferred_tags := apply_decay snd.tags decay_rate
    let cw1 := snd.tags.foldl (fun cw p =>
      cw.apply_delta p.1 (-(Int.fdiv (amount * (p.2 : ℤ)) (TAG_SCALE : ℤ)))) s.cluster_wealth
    let cw2 := transferred_tags.foldl (fun cw p =>
      cw.apply_delta p.1 (Int.fdiv (net_amount * (p.2 : ℤ)) (TAG_SCALE : ℤ))) cw1
    match accounts1.get? receiver with
    | none => (false, 0, s)
    | some rcv =>
      let receiver_balance_before := rcv.balance
      let rcv' := { rcv with
        tags := mix_tags rcv.tags receiver_balance_before transferred_tags net_amount,
        balance := rcv.balance + net_amount }
      (true, fee,
        { accounts := accounts1.set receiver rcv',
          cluster_wealth := cw2,
          total_fees := s.total_fees })

/-- One step of the harness: a mint (one account of `create_accounts`:
fresh cluster, seed delta, 100% self-attribution) or a transfer. -/
inductive AOp where
  | mint (agent_type : String) (balance : ℤ) : AOp
  | xfer (sender receiver : Nat) (amount : ℤ) : AOp

/-- The per-account body of `create_accounts`. -/
def mintAccount (s : SimState) (agent_type : String) (balance : ℤ) : SimState :=
  let nc := s.cluster_wealth.new_cluster
  let cw := nc.2.apply_delta nc.1 balance
  { accounts := s.accounts ++
      [{ id := s.accounts.length, balance := balance, agent_type := agent_type,
         tags := [(nc.1, TAG_SCALE)] }],
    cluster_wealth := cw,
    total_fees := s.total_fees }

/-- Run a sequence of mints and transfers; as in `run_round`, a successful
transfer's fee is added to `total_fees`. -/
def runA (rate_bps : ℚ → ℚ) (decay_rate : Nat) (s : SimState) : List AOp → SimState
  | [] => s
  | AOp.mint t b :: rest => runA rate_bps decay_rate (mintAccount s t b) rest
  | AOp.xfer a b amt :: rest =>
    let r := execute_transfer s a b amt decay_rate rate_bps
    let s' := if r.1 then { r.2.2 with total_fees := r.2.2.total_fees + r.2.1 } else r.2.2
    runA rate_bps decay_rate s' rest

/-- Total of all minted values in a sequence of operations. -/
def mintedTotal : List AOp → ℤ
  | [] => 0
  | AOp.mint _ b :: rest => b + mintedTotal rest
  | AOp.xfer _ _ _ :: rest => mintedTotal rest

/-- Sum of live account balances. -/
def sumBalances (s : SimState) : ℤ :=
  (s.accounts.map Account.balance).sum

/-- The empty simulation state. -/
def emptyState : SimState :=
  { accounts := [], cluster_wealth := emptyLedger, total_fees := 0 }

end AccountModel

theorem getTag_nil (c : Nat) : getTag [] c = 0 := rfl

namespace AccountModel

theorem setWealth_lookup_self (l : List (Nat × ℤ)) (c : Nat) (v : ℤ) :
    List.lookup c (setWealth l c v) = some v := by
  induction l with
  | nil => simp [setWealth, List.lookup]
  | cons p rest ih =>
      by_cases h : p.1 = c
      · simp [setWealth, h, List.lookup]
      · have hbeq : (c == p.1) = false := by
          simp only [beq_eq_false_iff_ne, ne_eq]
          exact fun e => h e.symm
        simp [setWealth, if_neg h, List.lookup, hbeq, ih]

theorem setWealth_lookup_other (l : List (Nat × ℤ)) (c c' : Nat) (v : ℤ) (h : c' ≠ c) :
    List.lookup c' (setWealth l c v) = List.lookup c' l := by
  have hbeq : (c' == c) = false := by
    simp only [beq_eq_false_iff_ne, ne_eq]; exact h
  induction l with
  | nil => simp [setWealth, List.lookup, hbeq]
  | cons p rest ih =>
      by_cases hp : p.1 = c
      · subst hp
        simp [setWealth, List.lookup, hbeq]
      · simp only [setWealth, if_neg hp, List.lookup]
        cases hb : (c' == p.1) <;> simp [hb, ih]

theorem get_setWealth_self (s : List (Nat × ℤ)) (c : Nat) (v : ℤ) :
    (List.lookup c (setWealth s c v)).getD 0 = v := by
  rw [setWealth_lookup_self]; rfl

/-- After `apply_delta`, the touched cluster holds `max 0 (old + delta)` and
every other cluster is untouched. -/
theorem apply_delta_get (s : ClusterWealth) (c c' : Nat) (d : ℤ) :
    (s.apply_delta c d).get c' =
      if c' = c then max 0 (s.get c + d) else s.get c' := by
  by_cases h : c' = c
  · subst h
    simp [ClusterWealth.apply_delta, ClusterWealth.get, get_setWealth_self]
  · simp [ClusterWealth.apply_delta, ClusterWealth.get, h,
      setWealth_lookup_other _ _ _ _ h]

/-- After `new_cluster`, the fresh cluster holds 0 and others are untouched. -/
theorem new_cluster_get (s : ClusterWealth) (c' : Nat) :
    (s.new_cluster).2.get c' =
      if c' = s.next_cluster then 0 else s.get c' := by
  by_cases h : c' = s.next_cluster
  · subst h
    simp [ClusterWealth.new_cluster, ClusterWealth.get, get_setWealth_self]
  · simp [ClusterWealth.new_cluster, ClusterWealth.get, h,
      setWealth_lookup_other _ _ _ _ h]

/-- Non-negativity is preserved by each ledger operation, hence by any
sequence of them. -/
theorem runLedger_nonneg (ops : List LedgerOp) (s : ClusterWealth)
    (hs : ∀ c, 0 ≤ s.get c) : ∀ c, 0 ≤ (runLedger s ops).get c := by
  induction ops generalizing s with
  | nil => exact hs
  | cons op rest ih =>
      cases op with
      | newCluster =>
          refine ih _ fun c => ?_
          rw [new_cluster_get]
          by_cases h : c = s.next_cluster <;> simp [h, hs c]
      | applyDelta cid d =>
          refine ih _ fun c => ?_
          rw [apply_delta_get]
          by_cases h : c = cid <;> simp [h, hs c, le_max_left]

end AccountModel

theorem lookup_none_of_not_mem_keys {β : Type} (l : List (Nat × β)) (c : Nat)
    (h : c ∉ l.map Prod.fst) : List.lookup c l = none := by
  induction l with
  | nil => rfl
  | cons p rest ih =>
      simp only [List.map_cons, List.mem_cons] at h
      push_neg at h
      have hbeq : (c == p.1) = false := by
        simp only [beq_eq_false_iff_ne, ne_eq]; exact h.1
      simp [List.lookup, hbeq, ih h.2]

theorem AccountModel.apply_decay_eq_filterMap_account (tags : Tags) (d : Nat) :
    AccountModel.apply_decay tags d = tags.filterMap (decayF AccountModel.TAG_PRUNE_THRESHOLD d) := rfl

theorem UtxoModel.apply_decay_eq_filterMap_utxo (tags : Tags) (d : Nat) :
    UtxoModel.apply_decay tags d = tags.filterMap (decayF UtxoModel.TAG_PRUNE_THRESHOLD d) := rfl

/-- Keys of the decayed vector are a subset of the input's keys. -/
theorem decayF_keys_subset (T d : Nat) (tags : Tags) (c : Nat)
    (h : c ∈ (tags.filterMap (decayF T d)).map Prod.fst) : c ∈ tags.map Prod.fst := by
  induction tags with
  | nil => simpa using h
  | cons p rest ih =>
      simp only [List.filterMap_cons] at h
      cases hf : decayF T d p with
      | none =>
          rw [hf] at h
          exact List.mem_cons_of_mem _ (ih h)
      | some q =>
          rw [hf] at h
          simp only [List.map_cons, List.mem_cons] at h ⊢
          rcases h with h | h
          · left
            have : q.1 = p.1 := by
              simp only [decayF] at hf
              split at hf
              · cases hf; rfl
              · cases hf
            rw [← this, h]
          · exact Or.inr (ih h)

/-- Lookup after decay: the entry decays pointwise, with pruning. -/
theorem lookup_decayF (T d : Nat) (tags : Tags) (c : Nat)
    (hnd : (tagKeys tags).Nodup) :
    List.lookup c (tags.filterMap (decayF T d)) =
      (List.lookup c tags).bind (fun w =>
        if T ≤ w - w * d / TAG_SCALE then some (w - w * d / TAG_SCALE) else none) := by
  induction tags with
  | nil => rfl
  | cons p rest ih =>
      simp only [tagKeys, List.map_cons, List.nodup_cons] at hnd
      by_cases hc : c = p.1
      · have hbeq : (c == p.1) = true := by simp [hc]
        by_cases hk : T ≤ p.2 - p.2 * d / TAG_SCALE
        · simp only [List.filterMap_cons, decayF, if_pos hk, List.lookup, hbeq,
            Option.bind, if_pos hk]
        · simp only [List.filterMap_cons, decayF, if_neg hk, List.lookup, hbeq,
            Option.bind, if_neg hk]
          exact lookup_none_of_not_mem_keys _ _
            (fun hm => hnd.1 (hc ▸ decayF_keys_subset T d rest c hm))
      · have hbeq : (c == p.1) = false := by
          simp only [beq_eq_false_iff_ne, ne_eq]; exact hc
        by_cases hk : T ≤ p.2 - p.2 * d / TAG_SCALE
        · simp only [List.filterMap_cons, decayF, if_pos hk, List.lookup, hbeq]
          exact ih hnd.2
        · simp only [List.filterMap_cons, decayF, if_neg hk, List.lookup, hbeq]
          exact ih hnd.2

/-- Decay never increases the explicit weight sum. -/
theorem sumW_decayF_le (T d : Nat) (tags : Tags) :
    sumW (tags.filterMap (decayF T d)) ≤ sumW tags := by
  induction tags with
  | nil => exact Nat.le_refl _
  | cons p rest ih =>
      simp only [List.filterMap_cons]
      by_cases hk : T ≤ p.2 - p.2 * d / TAG_SCALE
      · simp only [decayF, if_pos hk, sumW, List.map_cons, List.sum_cons]
        exact Nat.add_le_add (Nat.sub_le _ _) ih
      · simp only [decayF, if_neg hk]
        calc sumW (rest.filterMap (decayF T d)) ≤ sumW rest := ih
          _ ≤ sumW (p :: rest) := by
              simp only [sumW, List.map_cons, List.sum_cons]
              exact Nat.le_add_left _ _

/-- Decay with rate 0 keeps every entry at or above the threshold. -/
theorem decayF_zero (T : Nat) (tags : Tags) (h : ∀ p ∈ tags, T ≤ p.2) :
    tags.filterMap (decayF T 0) = tags := by
  induction tags with
  | nil => rfl
  | cons p rest ih =>
      have hp : T ≤ p.2 - p.2 * 0 / TAG_SCALE := by
        simpa using h p (List.mem_cons_self p rest)
      simp only [List.filterMap_cons, decayF, if_pos hp]
      have : p.2 - p.2 * 0 / TAG_SCALE = p.2 := by simp
      rw [this]
      rw [ih fun q hq => h q (List.mem_cons_of_mem p hq)]

/-- Decay with rate `TAG_SCALE` zeroes, hence prunes, every entry. -/
theorem decayF_scale (T : Nat) (hT : 0 < T) (tags : Tags) :
    tags.filterMap (decayF T TAG_SCALE) = [] := by
  induction tags with
  | nil => rfl
  | cons p rest ih =>
      have hz : p.2 - p.2 * TAG_SCALE / TAG_SCALE = 0 := by
        rw [Nat.mul_div_cancel p.2 (by norm_num [TAG_SCALE] : 0 < TAG_SCALE)]
        exact Nat.sub_self _
      have hk : ¬ T ≤ p.2 - p.2 * TAG_SCALE / TAG_SCALE := by
        rw [hz]; omega
      simp only [List.filterMap_cons, decayF, if_neg hk]
      exact ih

/-- Pointwise bound for one decay hop with `1 ≤ T` and `d ≤ TAG_SCALE`:
the surviving weight is `w - w*d/TAG_SCALE`, which never exceeds `w`, is
below `(1 - d/TAG_SCALE) * w + 1`, and strictly decreases exactly when
`TAG_SCALE ≤ w * d` makes the floored decay amount positive. -/
theorem decayF_bound (T d c w : Nat) (tags : Tags) (hT : 1 ≤ T)
    (hd : d ≤ TAG_SCALE) (hnd : (tagKeys tags).Nodup)
    (hw : List.lookup c tags = some w) :
    getTag (tags.filterMap (decayF T d)) c ≤ w ∧
    ((getTag (tags.filterMap (decayF T d)) c : ℚ) <
      (1 - (d : ℚ) / (TAG_SCALE : ℚ)) * (w : ℚ) + 1) ∧
    (TAG_SCALE ≤ w * d → getTag (tags.filterMap (decayF T d)) c < w) := by
  have hS : 0 < TAG_SCALE := by norm_num [TAG_SCALE]
  have hlk := lookup_decayF T d tags c hnd
  rw [hw] at hlk
  set q := w * d / TAG_SCALE with hq
  have hout : getTag (tags.filterMap (decayF T d)) c =
      if T ≤ w - q then w - q else 0 := by
    unfold getTag
    rw [hlk]
    by_cases hk : T ≤ w - q
    · simp [hk]
    · simp [hk]
  have hqle : (w : ℚ) * (d : ℚ) < (TAG_SCALE : ℚ) * ((q : ℚ) + 1) := by
    have h1 : w * d < TAG_SCALE * (q + 1) := by
      rw [hq, Nat.mul_add, Nat.mul_one]
      have h2 := Nat.div_add_mod (w * d) TAG_SCALE
      have h3 := Nat.mod_lt (w * d) hS
      omega
    push_cast
    exact_mod_cast h1
  refine ⟨?_, ?_, ?_⟩
  · rw [hout]
    by_cases hk : T ≤ w - q
    · simp only [if_pos hk]; exact Nat.sub_le _ _
    · simp only [if_neg hk]; exact Nat.zero_le _
  · rw [hout]
    by_cases hk : T ≤ w - q
    · simp only [if_pos hk]
      have hqw : q ≤ w := by omega
      have hcast : ((w - q : Nat) : ℚ) = (w : ℚ) - (q : ℚ) := by
        push_cast [hqw]; ring
      rw [hcast]
      have hSq : (0 : ℚ) < (TAG_SCALE : ℚ) := by exact_mod_cast hS
      have key : (w : ℚ) * (d : ℚ) / (TAG_SCALE : ℚ) < (q : ℚ) + 1 := by
        rw [div_lt_iff hSq]
        calc (w : ℚ) * (d : ℚ) < (TAG_SCALE : ℚ) * ((q : ℚ) + 1) := hqle
          _ = ((q : ℚ) + 1) * (TAG_SCALE : ℚ) := by ring
      have expand : (1 - (d : ℚ) / (TAG_SCALE : ℚ)) * (w : ℚ) + 1 =
          (w : ℚ) - (w : ℚ) * (d : ℚ) / (TAG_SCALE : ℚ) + 1 := by ring
      rw [expand]
      linarith
    · simp only [if_neg hk, Nat.cast_zero]
      have hdS : (d : ℚ) / (TAG_SCALE : ℚ) ≤ 1 := by
        have hSq : (0 : ℚ) < (TAG_SCALE : ℚ) := by exact_mod_cast hS
        rw [div_le_one hSq]
        exact_mod_cast hd
      have hwn : (0 : ℚ) ≤ (w : ℚ) := by positivity
      nlinarith
  · intro hwd
    have hq1 : 1 ≤ q := by
      rw [hq]
      exact (Nat.one_le_div_iff hS).2 hwd
    have hw1 : 1 ≤ w := by
      by_contra hcon
      push_neg at hcon
      interval_cases w
      simp [TAG_SCALE] at hwd
    rw [hout]
    by_cases hk : T ≤ w - q
    · simp only [if_pos hk]; omega
    · simp only [if_neg hk]; omega

/-- Claim C4, counterexample: with the account-model decay, the tag vector
`{0: 999999}` decayed at rate `d = 1` (one part per million) keeps weight
999999: the output weight exceeds `(1 - d/TAG_SCALE) * input`, and is not
strictly below the input even though `d > 0`, because the decay amount
`999999 * 1 // 1_000_000` floors to 0. -/
theorem decay_bound_cex :
    getTag (AccountModel.apply_decay [(0, 999999)] 1) 0 = 999999 ∧
    ¬ ((getTag (AccountModel.apply_decay [(0, 999999)] 1) 0 : ℚ) ≤
        (1 - (1 : ℚ) / (TAG_SCALE : ℚ)) * 999999) ∧
    ¬ (getTag (AccountModel.apply_decay [(0, 999999)] 1) 0 < 999999) := by
  have h : getTag (AccountModel.apply_decay [(0, 999999)] 1) 0 = 999999 := by decide
  refine ⟨h, ?_, ?_⟩
  · rw [h]
    norm_num [TAG_SCALE]
  · rw [h]
    omega

/-- Claim C4 (amended): for both decay implementations, with decay rate
`0 < d ≤ TAG_SCALE`, the output weight of a cluster with first-bound input
weight `w` is at most `w`, is strictly below `(1 - d/TAG_SCALE) * w + 1`
(the floored pointwise decay `w - w*d // TAG_SCALE`, or 0 when pruned),
and is strictly below `w` exactly when the floored decay amount is
positive, i.e. when `TAG_SCALE ≤ w * d`. -/
theorem decay_bound_amended :
    (∀ (tags : Tags) (d c w : Nat), (tagKeys tags).Nodup → 0 < d → d ≤ TAG_SCALE →
      List.lookup c tags = some w →
      getTag (AccountModel.apply_decay tags d) c ≤ w ∧
      ((getTag (AccountModel.apply_decay tags d) c : ℚ) <
        (1 - (d : ℚ) / (TAG_SCALE : ℚ)) * (w : ℚ) + 1) ∧
      (TAG_SCALE ≤ w * d → getTag (AccountModel.apply_decay tags d) c < w)) ∧
    (∀ (tags : Tags) (d c w : Nat), (tagKeys tags).Nodup → 0 < d → d ≤ TAG_SCALE →
      List.lookup c tags = some w →
      getTag (UtxoModel.apply_decay tags d) c ≤ w ∧
      ((getTag (UtxoModel.apply_decay tags d) c : ℚ) <
        (1 - (d : ℚ) / (TAG_SCALE : ℚ)) * (w : ℚ) + 1) ∧
      (TAG_SCALE ≤ w * d → getTag (UtxoModel.apply_decay tags d) c < w)) := by
  constructor
  · intro tags d c w hnd _ hd hw
    rw [AccountModel.apply_decay_eq_filterMap_account]
    exact decayF_bound AccountModel.TAG_PRUNE_THRESHOLD d c w tags (by decide) hd hnd hw
  · intro tags d c w hnd _ hd hw
    rw [UtxoModel.apply_decay_eq_filterMap_utxo]
    exact decayF_bound UtxoModel.TAG_PRUNE_THRESHOLD d c w tags (by decide) hd hnd hw

/-- Witness for the amended C4 bound at the concrete vector `{0: 500000}`
with decay rate 200000 (20%): output weight 400000. -/
theorem decay_bound_amended_witness :
    ((tagKeys [(0, 500000)]).Nodup ∧ 0 < 200000 ∧ 200000 ≤ TAG_SCALE ∧
      List.lookup 0 ([(0, 500000)] : Tags) = some 500000) ∧
    (getTag (AccountModel.apply_decay [(0, 500000)] 200000) 0 ≤ 500000 ∧
      ((getTag (AccountModel.apply_decay [(0, 500000)] 200000) 0 : ℚ) <
        (1 - (200000 : ℚ) / (TAG_SCALE : ℚ)) * (500000 : ℚ) + 1) ∧
      (TAG_SCALE ≤ 500000 * 200000 →
        getTag (AccountModel.apply_decay [(0, 500000)] 200000) 0 < 500000)) ∧
    (getTag (UtxoModel.apply_decay [(0, 500000)] 200000) 0 ≤ 500000 ∧
      ((getTag (UtxoModel.apply_decay [(0, 500000)] 200000) 0 : ℚ) <
        (1 - (200000 : ℚ) / (TAG_SCALE : ℚ)) * (500000 : ℚ) + 1) ∧
      (TAG_SCALE ≤ 500000 * 200000 →
        getTag (UtxoModel.apply_decay [(0, 500000)] 200000) 0 < 500000)) :=
  ⟨⟨by decide, by decide, by decide, by decide⟩,
   decay_bound_amended.1 [(0, 500000)] 200000 0 500000
     (by decide) (by decide) (by decide) (by decide),
   decay_bound_amended.2 [(0, 500000)] 200000 0 500000
     (by decide) (by decide) (by decide) (by decide)⟩

/-- Claim C9: for both decay implementations, `decay_rate = 0` is a no-op
on any vector whose entries all sit at or above the prune threshold, and
`decay_rate = TAG_SCALE` returns a vector with no explicit entries. -/
theorem decay_zero_noop_scale_zeroes :
    (∀ tags : Tags, (∀ p ∈ tags, AccountModel.TAG_PRUNE_THRESHOLD ≤ p.2) →
      AccountModel.apply_decay tags 0 = tags) ∧
    (∀ tags : Tags, AccountModel.apply_decay tags TAG_SCALE = []) ∧
    (∀ tags : Tags, (∀ p ∈ tags, UtxoModel.TAG_PRUNE_THRESHOLD ≤ p.2) →
      UtxoModel.apply_decay tags 0 = tags) ∧
    (∀ tags : Tags, UtxoModel.apply_decay tags TAG_SCALE = []) := by
  refine ⟨fun tags h => ?_, fun tags => ?_, fun tags h => ?_, fun tags => ?_⟩
  · rw [AccountModel.apply_decay_eq_filterMap_account]
    exact decayF_zero _ tags h
  · rw [AccountModel.apply_decay_eq_filterMap_account]
    exact decayF_scale _ (by decide) tags
  · rw [UtxoModel.apply_decay_eq_filterMap_utxo]
    exact decayF_zero _ tags h
  · rw [UtxoModel.apply_decay_eq_filterMap_utxo]
    exact decayF_scale _ (by decide) tags

/-- Witness for C9 at the concrete vector `{3: 5000, 9: 250000}`. -/
theorem decay_zero_noop_scale_zeroes_witness :
    (∀ p ∈ ([(3, 5000), (9, 250000)] : Tags), AccountModel.TAG_PRUNE_THRESHOLD ≤ p.2) ∧
    AccountModel.apply_decay [(3, 5000), (9, 250000)] 0 = [(3, 5000), (9, 250000)] ∧
    AccountModel.apply_decay [(3, 5000), (9, 250000)] TAG_SCALE = [] ∧
    UtxoModel.apply_decay [(3, 5000), (9, 250000)] 0 = [(3, 5000), (9, 250000)] ∧
    UtxoModel.apply_decay [(3, 5000), (9, 250000)] TAG_SCALE = [] :=
  ⟨by decide,
   decay_zero_noop_scale_zeroes.1 _ (by decide),
   decay_zero_noop_scale_zeroes.2.1 _,
   decay_zero_noop_scale_zeroes.2.2.1 _ (by decide),
   decay_zero_noop_scale_zeroes.2.2.2 _⟩

/-- Claim C7: any sequence of `new_cluster` and `apply_delta` operations
keeps every cluster's attributed wealth non-negative, and an `apply_delta`
whose delta drives the stored wealth to zero or below clamps the result to
exactly 0 (it never errors: `apply_delta` is total). -/
theorem cluster_wealth_nonneg :
    (∀ (ops : List AccountModel.LedgerOp) (c : Nat),
      0 ≤ (AccountModel.runLedger AccountModel.emptyLedger ops).get c) ∧
    (∀ (s : AccountModel.ClusterWealth) (c : Nat) (d : ℤ),
      s.get c + d ≤ 0 → (s.apply_delta c d).get c = 0) := by
  constructor
  · intro ops c
    refine AccountModel.runLedger_nonneg ops AccountModel.emptyLedger (fun c' => ?_) c
    simp [AccountModel.ClusterWealth.get, AccountModel.emptyLedger, List.lookup]
  · intro s c d h
    have h0 : (s.apply_delta c d).get c = max 0 (s.get c + d) := by
      rw [AccountModel.apply_delta_get]; simp
    rw [h0]
    exact max_eq_left h

/-- Witness for C7: mint a cluster, drain it past zero, observe the clamp. -/
theorem cluster_wealth_nonneg_witness :
    0 ≤ (AccountModel.runLedger AccountModel.emptyLedger
      [AccountModel.LedgerOp.newCluster,
       AccountModel.LedgerOp.applyDelta 0 7,
       AccountModel.LedgerOp.applyDelta 0 (-50)]).get 0 ∧
    AccountModel.emptyLedger.get 4 + (-3) ≤ 0 ∧
    (AccountModel.emptyLedger.apply_delta 4 (-3)).get 4 = 0 :=
  ⟨cluster_wealth_nonneg.1 _ 0, by decide,
   cluster_wealth_nonneg.2 AccountModel.emptyLedger 4 (-3) (by decide)⟩

theorem mem_keys_iff_lookup_isSome {β : Type} (l : List (Nat × β)) (c : Nat) :
    c ∈ l.map Prod.fst ↔ (List.lookup c l).isSome := by
  induction l with
  | nil => simp [List.lookup]
  | cons p rest ih =>
      by_cases hc : c = p.1
      · have hbeq : (c == p.1) = true := by simp [hc]
        simp [List.lookup, hbeq, hc]
      · have hbeq : (c == p.1) = false := by
          simp only [beq_eq_false_iff_ne, ne_eq]; exact hc
        simp [List.lookup, hbeq, hc, ih]

/-- Lookup through a `filterMap` whose function keeps the key it is given. -/
theorem lookup_filterMap_keyed (F : Nat → Option (Nat × Nat)) (l : List Nat) (c : Nat)
    (hF : ∀ x y, F x = some y → y.1 = x) :
    List.lookup c (l.filterMap F) = if c ∈ l then (F c).map Prod.snd else none := by
  induction l with
  | nil => simp [List.lookup]
  | cons a rest ih =>
      cases hFa : F a with
      | none =>
          simp only [List.filterMap_cons, hFa]
          by_cases hc : c = a
          · subst hc
            rw [ih]
            by_cases hm : c ∈ rest <;> simp [hm, hFa]
          · simp [List.mem_cons, hc, ih]
      | some q =>
          have hq : q.1 = a := hF a q hFa
          simp only [List.filterMap_cons, hFa]
          by_cases hc : c = a
          · have hbeq : (c == q.1) = true := by simp [hq, hc]
            simp only [List.lookup, hbeq, List.mem_cons]
            simp [hc, hFa]
          · have hbeq : (c == q.1) = false := by
              simp only [beq_eq_false_iff_ne, ne_eq, hq]; exact hc
            simp only [List.lookup, hbeq, List.mem_cons]
            simp [hc, ih]

/-- Lookup through the threshold filter, on a vector with distinct keys. -/
theorem lookup_filter_ge (T : Nat) (l : Tags) (c : Nat)
    (hnd : (tagKeys l).Nodup) :
    List.lookup c (l.filter fun p => T ≤ p.2) =
      (List.lookup c l).bind (fun w => if T ≤ w then some w else none) := by
  induction l with
  | nil => rfl
  | cons p rest ih =>
      simp only [tagKeys, List.map_cons, List.nodup_cons] at hnd
      by_cases hc : c = p.1
      · have hbeq : (c == p.1) = true := by simp [hc]
        by_cases hk : T ≤ p.2
        · have hfc : List.filter (fun q => decide (T ≤ q.2)) (p :: rest) =
              p :: List.filter (fun q => decide (T ≤ q.2)) rest := by
            simp [List.filter_cons, hk]
          rw [hfc]
          simp [List.lookup, hbeq, hk]
        · have hfc : List.filter (fun q => decide (T ≤ q.2)) (p :: rest) =
              List.filter (fun q => decide (T ≤ q.2)) rest := by
            simp [List.filter_cons, hk]
          rw [hfc]
          have hnot : c ∉ (List.filter (fun q => decide (T ≤ q.2)) rest).map Prod.fst := by
            intro hm
            refine hnd.1 (hc ▸ ?_)
            rcases List.mem_map.1 hm with ⟨q, hq, hqc⟩
            exact List.mem_map.2 ⟨q, List.mem_of_mem_filter hq, hqc⟩
          rw [lookup_none_of_not_mem_keys _ _ hnot]
          simp [List.lookup, hbeq, hk]
      · have hbeq : (c == p.1) = false := by
          simp only [beq_eq_false_iff_ne, ne_eq]; exact hc
        by_cases hk : T ≤ p.2
        · have hfc : List.filter (fun q => decide (T ≤ q.2)) (p :: rest) =
              p :: List.filter (fun q => decide (T ≤ q.2)) rest := by
            simp [List.filter_cons, hk]
          rw [hfc]
          simp only [List.lookup, hbeq]
          exact ih hnd.2
        · have hfc : List.filter (fun q => decide (T ≤ q.2)) (p :: rest) =
              List.filter (fun q => decide (T ≤ q.2)) rest := by
            simp [List.filter_cons, hk]
          rw [hfc]
          simp only [List.lookup, hbeq]
          exact ih hnd.2

/-- Claim C8, counterexample: with both values zero, `mix_tags` returns the
empty vector, not the other input (even after pruning); and with
`incoming_value = 0`, a below-threshold self entry is pruned, so the result
is not the self vector unchanged. -/
theorem mix_identity_cex :
    AccountModel.mix_tags [] 0 [(0, 1000)] 0 = [] ∧
    (0, 1000) ∈ (([(0, 1000)] : Tags).filter fun p => AccountModel.TAG_PRUNE_THRESHOLD ≤ p.2) ∧
    AccountModel.mix_tags [(0, 50)] 1 [] 0 = [] ∧
    ([] : Tags) ≠ [(0, 50)] := by
  refine ⟨by decide, by decide, by decide, by decide⟩

/-- Claim C8 (amended): with distinct keys, `mix_tags` with
`self_value = 0` and `incoming_value > 0` is the incoming vector with
sub-threshold entries pruned; symmetrically with `incoming_value = 0` and
`self_value > 0` it is the self vector with sub-threshold entries pruned;
with both values zero it is the empty vector. -/
theorem mix_identity_amended :
    (∀ (self_tags inc : Tags) (iv : ℤ), (tagKeys inc).Nodup → 0 < iv →
      ∀ c, List.lookup c (AccountModel.mix_tags self_tags 0 inc iv) =
        List.lookup c (inc.filter fun p => AccountModel.TAG_PRUNE_THRESHOLD ≤ p.2)) ∧
    (∀ (self_tags inc : Tags) (sv : ℤ), (tagKeys self_tags).Nodup → 0 < sv →
      ∀ c, List.lookup c (AccountModel.mix_tags self_tags sv inc 0) =
        List.lookup c (self_tags.filter fun p => AccountModel.TAG_PRUNE_THRESHOLD ≤ p.2)) ∧
    (∀ self_tags inc : Tags, AccountModel.mix_tags self_tags 0 inc 0 = []) := by
  refine ⟨?_, ?_, ?_⟩
  · intro self_tags inc iv hnd hiv c
    have hne : ¬ ((0 : ℤ) + iv = 0) := by omega
    unfold AccountModel.mix_tags
    simp only []
    rw [if_neg hne]
    rw [lookup_filterMap_keyed]
    · rw [lookup_filter_ge _ _ _ hnd]
      have hnw : ∀ c' : Nat,
          Int.fdiv (0 * ((getTag self_tags c' : ℤ)) + iv * ((getTag inc c' : ℤ))) (0 + iv) =
            (getTag inc c' : ℤ) := by
        intro c'
        rw [zero_mul, zero_add, zero_add]
        exact Int.mul_fdiv_cancel_left _ (by omega)
      cases hm : List.lookup c inc with
      | none =>
          have hmem : c ∉ inc.map Prod.fst := by
            rw [mem_keys_iff_lookup_isSome, hm]
            simp
          have hg : getTag inc c = 0 := by
            unfold getTag; rw [hm]; rfl
          by_cases hAC : c ∈ (tagKeys self_tags ++ tagKeys inc).dedup
          · rw [if_pos hAC, hnw c, hg]
            simp [AccountModel.TAG_PRUNE_THRESHOLD]
          · rw [if_neg hAC]
            simp
      | some w =>
          have hmem : c ∈ tagKeys inc := by
            rw [tagKeys, mem_keys_iff_lookup_isSome, hm]; rfl
          have hAC : c ∈ (tagKeys self_tags ++ tagKeys inc).dedup :=
            List.mem_dedup.2 (List.mem_append.2 (Or.inr hmem))
          have hg : getTag inc c = w := by
            unfold getTag; rw [hm]; rfl
          rw [if_pos hAC, hnw c, hg]
          by_cases hk : AccountModel.TAG_PRUNE_THRESHOLD ≤ w
          · rw [if_pos (by exact_mod_cast hk)]
            simp [hk]
          · rw [if_neg (by exact_mod_cast hk)]
            simp [hk]
    · intro x y h
      simp only [] at h
      split at h
      · cases h; rfl
      · cases h
  · intro self_tags inc sv hnd hsv c
    have hne : ¬ (sv + (0 : ℤ) = 0) := by omega
    unfold AccountModel.mix_tags
    simp only []
    rw [if_neg hne]
    rw [lookup_filterMap_keyed]
    · rw [lookup_filter_ge _ _ _ hnd]
      have hnw : ∀ c' : Nat,
          Int.fdiv (sv * ((getTag self_tags c' : ℤ)) + 0 * ((getTag inc c' : ℤ))) (sv + 0) =
            (getTag self_tags c' : ℤ) := by
        intro c'
        rw [zero_mul, add_zero, add_zero]
        exact Int.mul_fdiv_cancel_left _ (by omega)
      cases hm : List.lookup c self_tags with
      | none =>
          have hg : getTag self_tags c = 0 := by
            unfold getTag; rw [hm]; rfl
          by_cases hAC : c ∈ (tagKeys self_tags ++ tagKeys inc).dedup
          · rw [if_pos hAC, hnw c, hg]
            simp [AccountModel.TAG_PRUNE_THRESHOLD]
          · rw [if_neg hAC]
            simp
      | some w =>
          have hmem : c ∈ tagKeys self_tags := by
            rw [tagKeys, mem_keys_iff_lookup_isSome, hm]; rfl
          have hAC : c ∈ (tagKeys self_tags ++ tagKeys inc).dedup :=
            List.mem_dedup.2 (List.mem_append.2 (Or.inl hmem))
          have hg : getTag self_tags c = w := by
            unfold getTag; rw [hm]; rfl
          rw [if_pos hAC, hnw c, hg]
          by_cases hk : AccountModel.TAG_PRUNE_THRESHOLD ≤ w
          · rw [if_pos (by exact_mod_cast hk)]
            simp [hk]
          · rw [if_neg (by exact_mod_cast hk)]
            simp [hk]
    · intro x y h
      simp only [] at h
      split at h
      · cases h; rfl
      · cases h
  · intro self_tags inc
    unfold AccountModel.mix_tags
    simp

/-- Witness for the amended C8 at concrete vectors: mixing with a zero
self value keeps the above-threshold incoming entry and prunes the weight
50 entry; symmetrically for a zero incoming value; both-zero gives `[]`. -/
theorem mix_identity_amended_witness :
    ((tagKeys ([(0, 600000), (1, 50)] : Tags)).Nodup ∧ (0 : ℤ) < 7 ∧
      List.lookup 0 (AccountModel.mix_tags [(5, 300000)] 0 [(0, 600000), (1, 50)] 7) =
        List.lookup 0 (([(0, 600000), (1, 50)] : Tags).filter
          fun p => AccountModel.TAG_PRUNE_THRESHOLD ≤ p.2)) ∧
    ((tagKeys ([(2, 400), (3, 70)] : Tags)).Nodup ∧ (0 : ℤ) < 3 ∧
      List.lookup 3 (AccountModel.mix_tags [(2, 400), (3, 70)] 3 [(9, 800)] 0) =
        List.lookup 3 (([(2, 400), (3, 70)] : Tags).filter
          fun p => AccountModel.TAG_PRUNE_THRESHOLD ≤ p.2)) ∧
    AccountModel.mix_tags [(2, 500)] 0 [(3, 400)] 0 = [] :=
  ⟨⟨by decide, by decide,
    mix_identity_amended.1 [(5, 300000)] [(0, 600000), (1, 50)] 7 (by decide) (by decide) 0⟩,
   ⟨by decide, by decide,
    mix_identity_amended.2.1 [(2, 400), (3, 70)] [(9, 800)] 3 (by decide) (by decide) 3⟩,
   mix_identity_amended.2.2 [(2, 500)] [(3, 400)]⟩

/-- All outputs minted by the output fold of `ProvRef.transfer` carry the
blended source wealth `B`. -/
theorem ProvRef.mintOutputs_source_wealth (B : ℤ) (outs : List (String × ℤ))
    (acc : List ProvRef.UTXO × ProvRef.UTXOSet)
    (hacc : ∀ o ∈ acc.1, o.source_wealth = B) :
    ∀ o ∈ (outs.foldl (fun (acc : List ProvRef.UTXO × ProvRef.UTXOSet) ov =>
        let m := ProvRef.mint acc.2 ov.1 ov.2 B
        (acc.1 ++ [m.1], m.2)) acc).1, o.source_wealth = B := by
  induction outs generalizing acc with
  | nil => exact hacc
  | cons ov rest ih =>
      simp only [List.foldl_cons]
      refine ih _ fun o ho => ?_
      rcases List.mem_append.1 ho with h | h
      · exact hacc o h
      · rcases List.mem_singleton.1 h with rfl
        rfl

/-- Claim C6 (amended): a transfer spending a single nonzero-valued input
gives every produced output the input's own `source_wealth` (the blended
source wealth of a one-input transfer is the input's), so any successful
self-transfer split leaves the attribution-derived source wealth of all
outputs at the pre-split value. -/
theorem split_resistance_amended :
    ∀ (s : ProvRef.UTXOSet) (uid : Nat) (u : ProvRef.UTXO)
      (outs : List (String × ℤ)) (mw : ℤ),
      ProvRef.lookupUTXO s uid = some u → u.value ≠ 0 →
      (ProvRef.transfer s [uid] outs mw).1 = true →
      ∀ o ∈ (ProvRef.transfer s [uid] outs mw).2.2.1,
        o.source_wealth = u.source_wealth := by
  intro s uid u outs mw hlk hv _ o ho
  have hgather : ProvRef.gatherInputs s [uid] = some [u] := by
    simp [ProvRef.gatherInputs, hlk]
  unfold ProvRef.transfer at ho
  rw [hgather] at ho
  simp only [] at ho
  have h1 : (List.map (fun u : ProvRef.UTXO => u.value * u.source_wealth) [u]).sum
      = u.value * u.source_wealth := by simp
  have h2 : (List.map ProvRef.UTXO.value [u]).sum = u.value := by simp
  rw [h1, h2, Int.mul_fdiv_cancel_left _ hv] at ho
  split at ho
  · exact absurd ho (List.not_mem_nil o)
  · exact ProvRef.mintOutputs_source_wealth u.source_wealth outs _ (by simp) o ho

/-- Claim C6, counterexample: the spec's literal scenario — mint 1,000,000
(source wealth 1,000,000), then self-transfer it into 10 outputs of
100,000 — does not yield 10 outputs at all: the outputs exhaust the input,
leaving nothing for the 150,000 fee, so `transfer` fails and returns no
outputs (the reference test passes vacuously over the empty list). -/
theorem split_ten_outputs_cex :
    ProvRef.transfer
        (ProvRef.mint { utxos := [], next_id := 0 } "whale" 1000000 1000000).2
        [0] (List.replicate 10 ("whale", (100000 : ℤ))) 1000000 =
      (false, 0, [],
        (ProvRef.mint { utxos := [], next_id := 0 } "whale" 1000000 1000000).2) := by
  have hf : Int.fdiv (1000000000000 : ℤ) 1000000 = 1000000 := by decide
  norm_num [ProvRef.transfer, ProvRef.gatherInputs, ProvRef.lookupUTXO, ProvRef.mint,
    List.find?, ProvRef.compute_fee_rate, pyInt, List.replicate, hf]

/-- Witness for the amended C6: splitting the same minted coin into 10
outputs of 85,000 (leaving room for the 127,500 fee) succeeds, and each
output — here the first, with id 1 — keeps source wealth 1,000,000. -/
theorem split_resistance_amended_witness :
    ProvRef.lookupUTXO
        (ProvRef.mint { utxos := [], next_id := 0 } "whale" 1000000 1000000).2 0 =
      some { id := 0, value := 1000000, source_wealth := 1000000, owner := "whale" } ∧
    ({ id := 0, value := 1000000, source_wealth := 1000000, owner := "whale" }
      : ProvRef.UTXO).value ≠ 0 ∧
    (ProvRef.transfer
        (ProvRef.mint { utxos := [], next_id := 0 } "whale" 1000000 1000000).2
        [0] (List.replicate 10 ("whale", (85000 : ℤ))) 1000000).1 = true ∧
    ({ id := 1, value := 85000, source_wealth := 1000000, owner := "whale" }
      : ProvRef.UTXO) ∈
      (ProvRef.transfer
        (ProvRef.mint { utxos := [], next_id := 0 } "whale" 1000000 1000000).2
        [0] (List.replicate 10 ("whale", (85000 : ℤ))) 1000000).2.2.1 ∧
    ({ id := 1, value := 85000, source_wealth := 1000000, owner := "whale" }
      : ProvRef.UTXO).source_wealth = 1000000 := by
  have hf : Int.fdiv (1000000000000 : ℤ) 1000000 = 1000000 := by decide
  have hlk : ProvRef.lookupUTXO
      (ProvRef.mint { utxos := [], next_id := 0 } "whale" 1000000 1000000).2 0 =
      some { id := 0, value := 1000000, source_wealth := 1000000, owner := "whale" } := by
    decide
  have hsucc : (ProvRef.transfer
      (ProvRef.mint { utxos := [], next_id := 0 } "whale" 1000000 1000000).2
      [0] (List.replicate 10 ("whale", (85000 : ℤ))) 1000000).1 = true := by
    norm_num [ProvRef.transfer, ProvRef.gatherInputs, ProvRef.lookupUTXO, ProvRef.mint,
      List.find?, ProvRef.compute_fee_rate, pyInt, List.replicate, hf, ProvRef.spend]
  have hmem : ({ id := 1, value := 85000, source_wealth := 1000000, owner := "whale" }
      : ProvRef.UTXO) ∈
      (ProvRef.transfer
        (ProvRef.mint { utxos := [], next_id := 0 } "whale" 1000000 1000000).2
        [0] (List.replicate 10 ("whale", (85000 : ℤ))) 1000000).2.2.1 := by
    norm_num [ProvRef.transfer, ProvRef.gatherInputs, ProvRef.lookupUTXO, ProvRef.mint,
      List.find?, ProvRef.compute_fee_rate, pyInt, List.replicate, hf, ProvRef.spend]
  exact ⟨hlk, by decide, hsucc, hmem,
    split_resistance_amended _ 0
      { id := 0, value := 1000000, source_wealth := 1000000, owner := "whale" }
      (List.replicate 10 ("whale", (85000 : ℤ))) 1000000 hlk (by decide) hsucc _ hmem⟩

/-- Claim C2, counterexample: combining the two inputs of the spec's blend
scenario yields blended source wealth 910,000 — the exact floor of the
value-weighted average — not 909,909 as the claim states. -/
theorem blend_not_909909_cex :
    (ProvRef.transfer
        (ProvRef.mint (ProvRef.mint { utxos := [], next_id := 0 }
          "merchant" 100000 1000000).2 "merchant" 10000 10000).2
        [0, 1] [("recipient", (95000 : ℤ))] 1000000).2.2.1.map
      ProvRef.UTXO.source_wealth = [910000] ∧ (910000 : ℤ) ≠ 909909 := by
  constructor
  · have hf : Int.fdiv (100100000000 : ℤ) 110000 = 910000 := by decide
    have hmin : min (1 : ℚ) (((910000 : ℤ) : ℚ) / ((1000000 : ℤ) : ℚ)) = 910000/1000000 := by
      rw [min_eq_right] <;> push_cast <;> norm_num
    have hg : ProvRef.gatherInputs
        (ProvRef.mint (ProvRef.mint { utxos := [], next_id := 0 }
          "merchant" 100000 1000000).2 "merchant" 10000 10000).2 [0, 1] =
        some [⟨0, 100000, 1000000, "merchant"⟩, ⟨1, 10000, 10000, "merchant"⟩] := by decide
    rw [ProvRef.transfer, hg]
    norm_num [ProvRef.compute_fee_rate, pyInt, hf, hmin, ProvRef.spend, ProvRef.mint]
  · decide

/-- Claim C2 (amended): the blend of (value 100,000, wealth 1,000,000) and
(value 10,000, wealth 10,000) under the code's integer floor-division
semantics is exactly `(100000*1000000 + 10000*10000) // 110000 = 910000`,
and the transfer combining the two inputs succeeds and produces one output
carrying exactly that source wealth. -/
theorem blend_on_combine_amended :
    (ProvRef.transfer
        (ProvRef.mint (ProvRef.mint { utxos := [], next_id := 0 }
          "merchant" 100000 1000000).2 "merchant" 10000 10000).2
        [0, 1] [("recipient", (95000 : ℤ))] 1000000).2.2.1.map
      ProvRef.UTXO.source_wealth =
      [Int.fdiv (100000 * 1000000 + 10000 * 10000) 110000] ∧
    Int.fdiv ((100000 : ℤ) * 1000000 + 10000 * 10000) 110000 = 910000 ∧
    (ProvRef.transfer
        (ProvRef.mint (ProvRef.mint { utxos := [], next_id := 0 }
          "merchant" 100000 1000000).2 "merchant" 10000 10000).2
        [0, 1] [("recipient", (95000 : ℤ))] 1000000).1 = true := by
  have hf : Int.fdiv (100100000000 : ℤ) 110000 = 910000 := by decide
  have hmin : min (1 : ℚ) (((910000 : ℤ) : ℚ) / ((1000000 : ℤ) : ℚ)) = 910000/1000000 := by
    rw [min_eq_right] <;> push_cast <;> norm_num
  have hg : ProvRef.gatherInputs
      (ProvRef.mint (ProvRef.mint { utxos := [], next_id := 0 }
        "merchant" 100000 1000000).2 "merchant" 10000 10000).2 [0, 1] =
      some [⟨0, 100000, 1000000, "merchant"⟩, ⟨1, 10000, 10000, "merchant"⟩] := by decide
  refine ⟨?_, by decide, ?_⟩
  · rw [ProvRef.transfer, hg]
    norm_num [ProvRef.compute_fee_rate, pyInt, hf, hmin, ProvRef.spend, ProvRef.mint]
  · rw [ProvRef.transfer, hg]
    norm_num [ProvRef.compute_fee_rate, pyInt, hf, hmin, ProvRef.spend, ProvRef.mint]

namespace SigmoidCurve

theorem sigmoidClamped_nonneg (x : ℝ) : 0 ≤ sigmoidClamped x := by
  unfold sigmoidClamped
  split
  · positivity
  · split
    · exact le_refl 0
    · exact zero_le_one

theorem sigmoidClamped_le_one (x : ℝ) : sigmoidClamped x ≤ 1 := by
  unfold sigmoidClamped
  split
  · rw [div_le_one (by positivity)]
    nlinarith [Real.exp_pos (-x)]
  · split
    · exact zero_le_one
    · exact le_refl 1

theorem sigmoidClamped_mono {x y : ℝ} (hxy : x ≤ y) :
    sigmoidClamped x ≤ sigmoidClamped y := by
  unfold sigmoidClamped
  by_cases hx : -700 < x ∧ x < 700
  · by_cases hy : -700 < y ∧ y < 700
    · rw [if_pos hx, if_pos hy]
      have h1 : (0 : ℝ) < 1 + Real.exp (-y) := by positivity
      have h2 : 1 + Real.exp (-y) ≤ 1 + Real.exp (-x) := by
        have := Real.exp_le_exp.2 (neg_le_neg hxy)
        linarith
      calc 1 / (1 + Real.exp (-x)) ≤ 1 / (1 + Real.exp (-y)) :=
            one_div_le_one_div_of_le h1 h2
        _ = 1 / (1 + Real.exp (-y)) := rfl
    · rw [if_pos hx, if_neg hy]
      have hy0 : ¬ y < 0 := by
        intro hneg
        have : ¬ (-700 : ℝ) < y := fun hgt => hy ⟨hgt, by linarith⟩
        push_neg at this
        linarith [hx.1]
      rw [if_neg hy0]
      rw [div_le_one (by positivity)]
      nlinarith [Real.exp_pos (-x)]
  · by_cases hx0 : x < 0
    · rw [if_neg hx, if_pos hx0]
      split
      · positivity
      · split
        · exact le_refl 0
        · exact zero_le_one
    · have hx0' : (0 : ℝ) ≤ x := le_of_not_lt hx0
      have hx700 : (700 : ℝ) ≤ x := by
        by_contra hcon
        push_neg at hcon
        exact hx ⟨by linarith, hcon⟩
      rw [if_neg hx, if_neg hx0]
      have hy : ¬ (-700 < y ∧ y < 700) := by
        intro hcon
        linarith [hcon.2, hx700, hxy]
      have hy0 : ¬ y < 0 := by linarith
      rw [if_neg hy, if_neg hy0]

theorem rate_bps_mono (c : FeeConfig) (h : c.r_min_bps ≤ c.r_max_bps)
    {w1 w2 : ℝ} (hw : w1 ≤ w2) : c.rate_bps w1 ≤ c.rate_bps w2 := by
  unfold FeeConfig.rate_bps
  by_cases he : c.r_min_bps = c.r_max_bps
  · simp only [if_pos he]
    exact le_refl _
  · simp only [if_neg he]
    have hpos : (0 : ℝ) < max c.steepness 1 := lt_of_lt_of_le zero_lt_one (le_max_right _ _)
    have hx : (w1 - c.w_mid) / max c.steepness 1 ≤ (w2 - c.w_mid) / max c.steepness 1 := by
      apply div_le_div_of_nonneg_right _ hpos.le
      linarith
    have hs := sigmoidClamped_mono hx
    nlinarith [sub_nonneg.2 h]

end SigmoidCurve

/-- Python `int()` truncation is monotone. -/
theorem pyInt_mono {q1 q2 : ℚ} (h : q1 ≤ q2) : pyInt q1 ≤ pyInt q2 := by
  unfold pyInt
  by_cases h1 : 0 ≤ q1
  · rw [if_pos h1, if_pos (h1.trans h)]
    exact Int.floor_le_floor h
  · rw [if_neg h1]
    by_cases h2 : 0 ≤ q2
    · rw [if_pos h2]
      push_neg at h1
      have ha : (0 : ℤ) ≤ ⌊q2⌋ := Int.floor_nonneg.2 h2
      have hb : (0 : ℤ) ≤ ⌊-q1⌋ := Int.floor_nonneg.2 (by linarith)
      omega
    · rw [if_neg h2]
      have : ⌊-q2⌋ ≤ ⌊-q1⌋ := Int.floor_le_floor (by linarith)
      omega

/-- `compute_fee_rate` is monotone in `source_wealth` when
`r_min ≤ r_max`. -/
theorem ProvRef.compute_fee_rate_mono (mw : ℤ) (r_min r_max : ℚ)
    (h : r_min ≤ r_max) {w1 w2 : ℤ} (hw : w1 ≤ w2) :
    ProvRef.compute_fee_rate w1 mw r_min r_max ≤
      ProvRef.compute_fee_rate w2 mw r_min r_max := by
  unfold ProvRef.compute_fee_rate
  by_cases hm : mw ≤ 0
  · simp only [if_pos hm]
    exact le_refl _
  · simp only [if_neg hm]
    push_neg at hm
    have hmq : (0 : ℚ) < (mw : ℚ) := by exact_mod_cast hm
    have hdiv : (w1 : ℚ) / (mw : ℚ) ≤ (w2 : ℚ) / (mw : ℚ) := by
      apply div_le_div_of_nonneg_right _ hmq.le
      exact_mod_cast hw
    have hmin : min 1 ((w1 : ℚ) / (mw : ℚ)) ≤ min 1 ((w2 : ℚ) / (mw : ℚ)) :=
      min_le_min (le_refl 1) hdiv
    nlinarith [sub_nonneg.2 h]

/-- `three_segment_fee_rate` is monotone in `effective_wealth` when the
four segment rates are ordered. -/
theorem ThreeSegment.three_segment_fee_rate_mono
    (mw w1f w2f rp rms rme rr : ℚ)
    (h1 : rp ≤ rms) (h2 : rms ≤ rme) (h3 : rme ≤ rr)
    {a b : ℚ} (hab : a ≤ b) :
    ThreeSegment.three_segment_fee_rate a mw w1f w2f rp rms rme rr ≤
      ThreeSegment.three_segment_fee_rate b mw w1f w2f rp rms rme rr := by
  unfold ThreeSegment.three_segment_fee_rate
  by_cases hm : mw ≤ 0
  · simp only [if_pos hm]
    exact le_refl _
  · simp only [if_neg hm]
    set W1 := mw * w1f with hW1
    set W2 := mw * w2f with hW2
    by_cases ha1 : a < W1
    · rw [if_pos ha1]
      by_cases hb1 : b < W1
      · rw [if_pos hb1]
      · rw [if_neg hb1]
        by_cases hb2 : b < W2
        · rw [if_pos hb2]
          push_neg at hb1
          have hdenom : (0 : ℚ) < W2 - W1 := by linarith
          have ht : 0 ≤ (b - W1) / (W2 - W1) := div_nonneg (by linarith) hdenom.le
          nlinarith
        · rw [if_neg hb2]
          linarith
    · rw [if_neg ha1]
      push_neg at ha1
      by_cases ha2 : a < W2
      · rw [if_pos ha2]
        have hdenom : (0 : ℚ) < W2 - W1 := by linarith
        by_cases hb2 : b < W2
        · have hb1 : ¬ b < W1 := by linarith
          rw [if_neg hb1, if_pos hb2]
          have ht : (a - W1) / (W2 - W1) ≤ (b - W1) / (W2 - W1) := by
            apply div_le_div_of_nonneg_right _ hdenom.le
            linarith
          nlinarith
        · have hb1 : ¬ b < W1 := by linarith
          rw [if_neg hb1, if_neg hb2]
          have ht1 : (a - W1) / (W2 - W1) ≤ 1 := by
            rw [div_le_one hdenom]
            linarith
          have ht0 : 0 ≤ (a - W1) / (W2 - W1) := div_nonneg (by linarith) hdenom.le
          nlinarith
      · rw [if_neg ha2]
        push_neg at ha2
        have hb1 : ¬ b < W1 := by linarith
        have hb2 : ¬ b < W2 := by linarith
        rw [if_neg hb1, if_neg hb2]

/-- Claim C5, counterexample: the three-segment curve with rates
`r_poor = 1/100`, `r_mid_start = 1/5`, `r_mid_end = 1/50`,
`r_rich = 3/20` has `rate_max = 3/20 ≥ rate_min = 1/100`, yet at
`max_wealth = 100` and amount 100, the fee at effective wealth 50 (15) is
strictly below the fee at effective wealth 10 (20): the fee is not
monotone for every configuration with `rate_max ≥ rate_min`. -/
theorem fee_monotone_cex :
    (1/100 : ℚ) ≤ 3/20 ∧ (10 : ℚ) < 50 ∧
    100 * ThreeSegment.three_segment_fee_rate 50 100 (1/10) (1/2) (1/100) (1/5) (1/50) (3/20) <
      100 * ThreeSegment.three_segment_fee_rate 10 100 (1/10) (1/2) (1/100) (1/5) (1/50) (3/20) := by
  refine ⟨by norm_num, by norm_num, ?_⟩
  norm_num [ThreeSegment.three_segment_fee_rate]

/-- Claim C5 (amended): for fixed non-negative amount and
`effective_wealth_B < effective_wealth_A`, the fee at A is at least the
fee at B for: the sigmoid `FeeConfig.rate_bps` whenever
`r_min_bps ≤ r_max_bps`; the linear `compute_fee_rate` (with Python `int`
truncation of the fee) whenever `r_min ≤ r_max`; and the three-segment
curve whenever, additionally to `r_poor ≤ r_rich`, the middle-segment
boundary rates are ordered between them
(`r_poor ≤ r_mid_start ≤ r_mid_end ≤ r_rich`). -/
theorem fee_monotone_amended :
    (∀ (c : SigmoidCurve.FeeConfig) (amount wA wB : ℝ),
      c.r_min_bps ≤ c.r_max_bps → 0 ≤ amount → wB < wA →
      amount * c.rate_bps wB / 10000 ≤ amount * c.rate_bps wA / 10000) ∧
    (∀ (mw : ℤ) (r_min r_max amount : ℚ) (wA wB : ℤ),
      r_min ≤ r_max → 0 ≤ amount → wB < wA →
      pyInt (amount * ProvRef.compute_fee_rate wB mw r_min r_max) ≤
        pyInt (amount * ProvRef.compute_fee_rate wA mw r_min r_max)) ∧
    (∀ (mw w1f w2f rp rms rme rr amount wA wB : ℚ),
      rp ≤ rms → rms ≤ rme → rme ≤ rr → 0 ≤ amount → wB < wA →
      amount * ThreeSegment.three_segment_fee_rate wB mw w1f w2f rp rms rme rr ≤
        amount * ThreeSegment.three_segment_fee_rate wA mw w1f w2f rp rms rme rr) := by
  refine ⟨?_, ?_, ?_⟩
  · intro c amount wA wB hr ha hw
    have := SigmoidCurve.rate_bps_mono c hr hw.le
    have h10 : (0 : ℝ) < 10000 := by norm_num
    apply div_le_div_of_nonneg_right _ h10.le
    exact mul_le_mul_of_nonneg_left this ha
  · intro mw r_min r_max amount wA wB hr ha hw
    apply pyInt_mono
    exact mul_le_mul_of_nonneg_left
      (ProvRef.compute_fee_rate_mono mw r_min r_max hr hw.le) ha
  · intro mw w1f w2f rp rms rme rr amount wA wB h1 h2 h3 ha hw
    exact mul_le_mul_of_nonneg_left
      (ThreeSegment.three_segment_fee_rate_mono mw w1f w2f rp rms rme rr h1 h2 h3 hw.le) ha

/-- Witness for the amended C5, at one concrete configuration and wealth
pair per curve. -/
theorem fee_monotone_amended_witness :
    ((⟨"prog", 0, 100, 50, 2⟩ : SigmoidCurve.FeeConfig).r_min_bps ≤
        (⟨"prog", 0, 100, 50, 2⟩ : SigmoidCurve.FeeConfig).r_max_bps ∧
      (0 : ℝ) ≤ 10 ∧ (1 : ℝ) < 2 ∧
      10 * (⟨"prog", 0, 100, 50, 2⟩ : SigmoidCurve.FeeConfig).rate_bps 1 / 10000 ≤
        10 * (⟨"prog", 0, 100, 50, 2⟩ : SigmoidCurve.FeeConfig).rate_bps 2 / 10000) ∧
    ((1/100 : ℚ) ≤ 3/20 ∧ (0 : ℚ) ≤ 95000 ∧ (10000 : ℤ) < 910000 ∧
      pyInt (95000 * ProvRef.compute_fee_rate 10000 1000000 (1/100) (3/20)) ≤
        pyInt (95000 * ProvRef.compute_fee_rate 910000 1000000 (1/100) (3/20))) ∧
    ((1/100 : ℚ) ≤ 1/50 ∧ (1/50 : ℚ) ≤ 3/25 ∧ (3/25 : ℚ) ≤ 3/20 ∧ (0 : ℚ) ≤ 100 ∧
      (10 : ℚ) < 50 ∧
      100 * ThreeSegment.three_segment_fee_rate 10 100 (1/10) (1/2) (1/100) (1/50) (3/25) (3/20) ≤
        100 * ThreeSegment.three_segment_fee_rate 50 100 (1/10) (1/2) (1/100) (1/50) (3/25) (3/20)) :=
  ⟨⟨by norm_num, by norm_num, by norm_num,
    fee_monotone_amended.1 ⟨"prog", 0, 100, 50, 2⟩ 10 2 1 (by norm_num) (by norm_num) (by norm_num)⟩,
   ⟨by norm_num, by norm_num, by norm_num,
    fee_monotone_amended.2.1 1000000 (1/100) (3/20) 95000 910000 10000
      (by norm_num) (by norm_num) (by norm_num)⟩,
   ⟨by norm_num, by norm_num, by norm_num, by norm_num, by norm_num,
    fee_monotone_amended.2.2 100 (1/10) (1/2) (1/100) (1/50) (3/25) (3/20) 100 50 10
      (by norm_num) (by norm_num) (by norm_num) (by norm_num) (by norm_num)⟩⟩

/-- Every return of `UtxoModel.transfer` is either the failure pair
`(false, s)` with the state untouched, or a success. -/
theorem UtxoModel.transfer_cases_utxo (s : UtxoModel.SimState) (a b : Nat) (amt : ℚ) :
    UtxoModel.transfer s a b amt = (false, s) ∨
      (UtxoModel.transfer s a b amt).1 = true := by
  unfold UtxoModel.transfer
  simp only []
  repeat' split
  all_goals first
    | exact Or.inl rfl
    | exact Or.inr rfl

/-- Every return of `ClusterModel.transfer` is either the failure pair
`(false, s)` with the state untouched, or a success. -/
theorem ClusterModel.transfer_cases_cluster (s : ClusterModel.SimState) (a b : Nat)
    (amt decay : ℚ) (cache : Option (List (Nat × ℚ))) (rate_bps : ℚ → ℚ) :
    ClusterModel.transfer s a b amt decay cache rate_bps = (false, s) ∨
      (ClusterModel.transfer s a b amt decay cache rate_bps).1 = true := by
  unfold ClusterModel.transfer
  simp only []
  repeat' split
  all_goals first
    | exact Or.inl rfl
    | exact Or.inr rfl

/-- Claim C3: whenever a UTXO-model or cluster-model transfer reports
failure (non-positive amount, or the sender cannot cover amount plus fee
after exhausting entries), the returned state — UTXO set, tag vectors,
agent balances and cumulative fees — is exactly the input state: no
partial mutation happens on any error path. -/
theorem transfer_failure_leaves_state_unchanged :
    (∀ (s : UtxoModel.SimState) (a b : Nat) (amt : ℚ),
      (UtxoModel.transfer s a b amt).1 = false →
      (UtxoModel.transfer s a b amt).2 = s) ∧
    (∀ (s : ClusterModel.SimState) (a b : Nat) (amt decay : ℚ)
      (cache : Option (List (Nat × ℚ))) (rate_bps : ℚ → ℚ),
      (ClusterModel.transfer s a b amt decay cache rate_bps).1 = false →
      (ClusterModel.transfer s a b amt decay cache rate_bps).2 = s) := by
  constructor
  · intro s a b amt h
    rcases UtxoModel.transfer_cases_utxo s a b amt with heq | htrue
    · rw [heq]
    · rw [htrue] at h
      cases h
  · intro s a b amt decay cache rate_bps h
    rcases ClusterModel.transfer_cases_cluster s a b amt decay cache rate_bps with heq | htrue
    · rw [heq]
    · rw [htrue] at h
      cases h

/-- Witness for C3: a transfer from an empty UTXO set and a zero-amount
cluster transfer both fail and leave their states unchanged. -/
theorem transfer_failure_leaves_state_unchanged_witness :
    (UtxoModel.transfer
        { utxos := [], next_id := 0, next_cluster := 0, initial_cluster_wealth := [],
          decay_rate := 0, fee_config := { r_max_bps := 0, rate_bps := fun _ => 0 },
          total_fees := 0 } 0 1 5).1 = false ∧
    (UtxoModel.transfer
        { utxos := [], next_id := 0, next_cluster := 0, initial_cluster_wealth := [],
          decay_rate := 0, fee_config := { r_max_bps := 0, rate_bps := fun _ => 0 },
          total_fees := 0 } 0 1 5).2 =
      { utxos := [], next_id := 0, next_cluster := 0, initial_cluster_wealth := [],
        decay_rate := 0, fee_config := { r_max_bps := 0, rate_bps := fun _ => 0 },
        total_fees := 0 } ∧
    (ClusterModel.transfer
        { agents := [{ id := 0, balance := 10, agent_type := "retail", tags := [] }],
          total_fees := 0 } 0 0 0 (1/20) none (fun _ => 0)).1 = false ∧
    (ClusterModel.transfer
        { agents := [{ id := 0, balance := 10, agent_type := "retail", tags := [] }],
          total_fees := 0 } 0 0 0 (1/20) none (fun _ => 0)).2 =
      { agents := [{ id := 0, balance := 10, agent_type := "retail", tags := [] }],
        total_fees := 0 } := by
  have h1 : (UtxoModel.transfer
      { utxos := [], next_id := 0, next_cluster := 0, initial_cluster_wealth := [],
        decay_rate := 0, fee_config := { r_max_bps := 0, rate_bps := fun _ => 0 },
        total_fees := 0 } 0 1 5).1 = false := by
    norm_num [UtxoModel.transfer, UtxoModel.totalValue]
  have h2 : (ClusterModel.transfer
      { agents := [{ id := 0, balance := 10, agent_type := "retail", tags := [] }],
        total_fees := 0 } 0 0 0 (1/20) none (fun _ => 0)).1 = false := by
    norm_num [ClusterModel.transfer]
  exact ⟨h1, transfer_failure_leaves_state_unchanged.1 _ 0 1 5 h1, h2,
    transfer_failure_leaves_state_unchanged.2 _ 0 0 0 (1/20) none (fun _ => 0) h2⟩

theorem getTag_cons (p : Nat × Nat) (rest : Tags) (c : Nat) :
    getTag (p :: rest) c = if c = p.1 then p.2 else getTag rest c := by
  unfold getTag
  by_cases hc : c = p.1
  · have hb : (c == p.1) = true := by simp [hc]
    simp [List.lookup, hb, hc]
  · have hb : (c == p.1) = false := by
      simp only [beq_eq_false_iff_ne, ne_eq]; exact hc
    simp [List.lookup, hb, hc]

theorem sum_map_ite_key (AC : List Nat) (hAC : AC.Nodup) (k v : Nat) (f : Nat → Nat) :
    (AC.map fun c => if c = k then v else f c).sum ≤ v + (AC.map f).sum := by
  induction AC with
  | nil => simp
  | cons a rest ih =>
      simp only [List.nodup_cons] at hAC
      by_cases ha : a = k
      · subst ha
        have hrest : (rest.map fun c => if c = a then v else f c) = rest.map f := by
          apply List.map_congr_left
          intro c hc
          have hne : c ≠ a := fun e => hAC.1 (e ▸ hc)
          exact if_neg hne
        simp only [List.map_cons, List.sum_cons, hrest]
        simp only [if_true]
        omega
      · simp only [List.map_cons, List.sum_cons, if_neg ha]
        have := ih hAC.2
        omega

/-- Summing a tag vector's weights over any duplicate-free cluster list is
at most the full explicit weight sum. -/
theorem sum_getTag_le (t : Tags) (AC : List Nat) (hAC : AC.Nodup) :
    (AC.map fun c => getTag t c).sum ≤ sumW t := by
  induction t generalizing AC with
  | nil =>
      have : (AC.map fun c => getTag [] c) = AC.map fun _ => 0 := by
        apply List.map_congr_left
        intro c _
        rfl
      rw [this]
      simp [sumW]
  | cons p rest ih =>
      have hmap : (AC.map fun c => getTag (p :: rest) c) =
          AC.map fun c => if c = p.1 then p.2 else getTag rest c := by
        apply List.map_congr_left
        intro c _
        exact getTag_cons p rest c
      rw [hmap]
      calc (AC.map fun c => if c = p.1 then p.2 else getTag rest c).sum
          ≤ p.2 + (AC.map fun c => getTag rest c).sum :=
            sum_map_ite_key AC hAC p.1 p.2 _
        _ ≤ p.2 + sumW rest := by
            have := ih AC hAC
            omega
        _ = sumW (p :: rest) := by simp [sumW]

/-- Floor division is superadditive: summing the floored quotients is at
most the floored quotient of the sum (positive divisor). -/
theorem sum_fdiv_le {α : Type} (t : ℤ) (ht : 0 < t) (x : α → ℤ) (l : List α) :
    (l.map fun c => Int.fdiv (x c) t).sum ≤ Int.fdiv ((l.map x).sum) t := by
  have key : ∀ a b : ℤ, Int.fdiv a t + Int.fdiv b t ≤ Int.fdiv (a + b) t := by
    intro a b
    rw [Int.fdiv_eq_ediv _ ht.le, Int.fdiv_eq_ediv _ ht.le, Int.fdiv_eq_ediv _ ht.le]
    rw [Int.le_ediv_iff_mul_le ht, add_mul]
    exact add_le_add (Int.ediv_mul_le _ (ne_of_gt ht)) (Int.ediv_mul_le _ (ne_of_gt ht))
  induction l with
  | nil => simp
  | cons a rest ih =>
      simp only [List.map_cons, List.sum_cons]
      calc Int.fdiv (x a) t + (rest.map fun c => Int.fdiv (x c) t).sum
          ≤ Int.fdiv (x a) t + Int.fdiv ((rest.map x).sum) t := by
            exact add_le_add_left ih _
        _ ≤ Int.fdiv (x a + (rest.map x).sum) t := key _ _

theorem list_sum_map_add {α : Type} (l : List α) (f g : α → ℤ) :
    (l.map fun x => f x + g x).sum = (l.map f).sum + (l.map g).sum := by
  induction l with
  | nil => simp
  | cons a rest ih =>
      simp only [List.map_cons, List.sum_cons, ih]
      ring

theorem list_sum_map_mul_left {α : Type} (l : List α) (b : ℤ) (f : α → ℤ) :
    (l.map fun x => b * f x).sum = b * (l.map f).sum := by
  induction l with
  | nil => simp
  | cons a rest ih =>
      simp only [List.map_cons, List.sum_cons, ih]
      ring

/-- Sum of kept weights through a key-preserving conditional `filterMap`
is bounded by the unconditional sum. -/
theorem sumW_filterMap_if_le (g : Nat → Nat) (P : Nat → Prop) [DecidablePred P]
    (AC : List Nat) :
    sumW (AC.filterMap fun c => if P c then some (c, g c) else none) ≤
      (AC.map g).sum := by
  induction AC with
  | nil => simp [sumW]
  | cons a rest ih =>
      simp only [List.map_cons, List.sum_cons, List.filterMap_cons]
      by_cases hP : P a
      · rw [if_pos hP]
        simp only [sumW, List.map_cons, List.sum_cons]
        exact Nat.add_le_add_left ih _
      · rw [if_neg hP]
        exact le_trans ih (Nat.le_add_left _ _)

theorem cast_list_sum_int (l : List Nat) : ((l.sum : Nat) : ℤ) = (l.map fun n : Nat => (n : ℤ)).sum := by
  induction l with
  | nil => rfl
  | cons a rest ih =>
      simp only [List.sum_cons, List.map_cons, Nat.cast_add, ih]

/-- The explicit weights produced by `mix_tags` sum to at most `TAG_SCALE`
whenever both input vectors do and both values are non-negative. -/
theorem mix_tags_sumW_le (self_tags inc : Tags) (sv iv : ℤ)
    (hsv : 0 ≤ sv) (hiv : 0 ≤ iv)
    (h1 : sumW self_tags ≤ TAG_SCALE) (h2 : sumW inc ≤ TAG_SCALE) :
    sumW (AccountModel.mix_tags self_tags sv inc iv) ≤ TAG_SCALE := by
  unfold AccountModel.mix_tags
  simp only []
  by_cases h0 : sv + iv = 0
  · rw [if_pos h0]
    simp [sumW, TAG_SCALE]
  · rw [if_neg h0]
    have ht : (0 : ℤ) < sv + iv := by omega
    have hAC : ((tagKeys self_tags ++ tagKeys inc).dedup).Nodup := List.nodup_dedup _
    refine le_trans (sumW_filterMap_if_le
      (fun c => (Int.fdiv (sv * (getTag self_tags c : ℤ) + iv * (getTag inc c : ℤ)) (sv + iv)).toNat)
      (fun c => (AccountModel.TAG_PRUNE_THRESHOLD : ℤ) ≤
        Int.fdiv (sv * (getTag self_tags c : ℤ) + iv * (getTag inc c : ℤ)) (sv + iv))
      ((tagKeys self_tags ++ tagKeys inc).dedup)) ?_
  
    have hnum_nonneg : ∀ c : Nat,
        0 ≤ sv * (getTag self_tags c : ℤ) + iv * (getTag inc c : ℤ) := by
      intro c
      have ha := mul_nonneg hsv (Int.natCast_nonneg (getTag self_tags c))
      have hb := mul_nonneg hiv (Int.natCast_nonneg (getTag inc c))
      omega
    have hfd_nonneg : ∀ c : Nat,
        0 ≤ Int.fdiv (sv * (getTag self_tags c : ℤ) + iv * (getTag inc c : ℤ)) (sv + iv) :=
      fun c => Int.fdiv_nonneg (hnum_nonneg c) ht.le
    set AC := (tagKeys self_tags ++ tagKeys inc).dedup with hACdef
    have hcast : ((((AC.map fun c =>
          (Int.fdiv (sv * (getTag self_tags c : ℤ) + iv * (getTag inc c : ℤ)) (sv + iv)).toNat).sum
            : Nat)) : ℤ) =
        (AC.map fun c =>
          Int.fdiv (sv * (getTag self_tags c : ℤ) + iv * (getTag inc c : ℤ)) (sv + iv)).sum := by
      rw [cast_list_sum_int, List.map_map]
      refine congrArg List.sum (List.map_congr_left fun c _ => ?_)
      simp only [Function.comp_apply]
      exact Int.toNat_of_nonneg (hfd_nonneg c)
    suffices hZ : (AC.map fun c =>
        Int.fdiv (sv * (getTag self_tags c : ℤ) + iv * (getTag inc c : ℤ)) (sv + iv)).sum ≤
        (TAG_SCALE : ℤ) by
      rw [← hcast] at hZ
      exact_mod_cast hZ
    have hsT : (AC.map fun c => ((getTag self_tags c : ℤ))).sum ≤ (TAG_SCALE : ℤ) := by
      have hN := le_trans (sum_getTag_le self_tags AC hAC) h1
      have hc : (AC.map fun c => ((getTag self_tags c : ℤ))).sum =
          (((AC.map fun c => getTag self_tags c).sum : Nat) : ℤ) := by
        rw [cast_list_sum_int, List.map_map]
        rfl
      rw [hc]
      exact_mod_cast hN
    have hiT : (AC.map fun c => ((getTag inc c : ℤ))).sum ≤ (TAG_SCALE : ℤ) := by
      have hN := le_trans (sum_getTag_le inc AC hAC) h2
      have hc : (AC.map fun c => ((getTag inc c : ℤ))).sum =
          (((AC.map fun c => getTag inc c).sum : Nat) : ℤ) := by
        rw [cast_list_sum_int, List.map_map]
        rfl
      rw [hc]
      exact_mod_cast hN
    have hsT0 : 0 ≤ (AC.map fun c => ((getTag self_tags c : ℤ))).sum := by
      apply List.sum_nonneg
      intro x hx
      rcases List.mem_map.1 hx with ⟨c, _, rfl⟩
      exact Int.natCast_nonneg _
    have hiT0 : 0 ≤ (AC.map fun c => ((getTag inc c : ℤ))).sum := by
      apply List.sum_nonneg
      intro x hx
      rcases List.mem_map.1 hx with ⟨c, _, rfl⟩
      exact Int.natCast_nonneg _
    calc (AC.map fun c =>
            Int.fdiv (sv * (getTag self_tags c : ℤ) + iv * (getTag inc c : ℤ)) (sv + iv)).sum
        ≤ Int.fdiv ((AC.map fun c =>
            sv * (getTag self_tags c : ℤ) + iv * (getTag inc c : ℤ)).sum) (sv + iv) :=
          sum_fdiv_le (sv + iv) ht _ AC
      _ ≤ Int.fdiv ((sv + iv) * (TAG_SCALE : ℤ)) (sv + iv) := by
          rw [Int.fdiv_eq_ediv _ ht.le, Int.fdiv_eq_ediv _ ht.le]
          apply Int.ediv_le_ediv ht
          rw [list_sum_map_add, list_sum_map_mul_left, list_sum_map_mul_left]
          have e1 := mul_le_mul_of_nonneg_left hsT hsv
          have e2 := mul_le_mul_of_nonneg_left hiT hiv
          nlinarith
      _ = (TAG_SCALE : ℤ) := Int.mul_fdiv_cancel_left _ (by omega)

theorem sumQ_addW (l : List (Nat × ℚ)) (c : Nat) (x : ℚ) :
    ((addW l c x).map Prod.snd).sum = (l.map Prod.snd).sum + x := by
  induction l with
  | nil => simp [addW]
  | cons p rest ih =>
      by_cases hp : p.1 = c
      · simp only [addW, if_pos hp, List.map_cons, List.sum_cons]
        ring
      · simp only [addW, if_neg hp, List.map_cons, List.sum_cons, ih]
        ring

theorem addW_nonneg (l : List (Nat × ℚ)) (c : Nat) (x : ℚ)
    (hl : ∀ p ∈ l, 0 ≤ p.2) (hx : 0 ≤ x) : ∀ p ∈ addW l c x, 0 ≤ p.2 := by
  induction l with
  | nil =>
      intro p hp
      simp only [addW, List.mem_singleton] at hp
      subst hp
      exact hx
  | cons q rest ih =>
      intro p hp
      by_cases hq : q.1 = c
      · simp only [addW, if_pos hq, List.mem_cons] at hp
        rcases hp with rfl | hp
        · have := hl q (List.mem_cons_self q rest)
          simpa using add_nonneg this hx
        · exact hl p (List.mem_cons_of_mem q hp)
      · simp only [addW, if_neg hq, List.mem_cons] at hp
        rcases hp with rfl | hp
        · exact hl p (List.mem_cons_self p rest)
        · exact ih (fun r hr => hl r (List.mem_cons_of_mem q hr)) p hp

theorem sumQ_tag_fold (t : Tags) (k : ℚ) (acc : List (Nat × ℚ)) :
    (((t.foldl (fun a cw => addW a cw.1 ((cw.2 : ℚ) * k)) acc)).map Prod.snd).sum =
      (acc.map Prod.snd).sum + (sumW t : ℚ) * k := by
  induction t generalizing acc with
  | nil => simp [sumW]
  | cons p rest ih =>
      simp only [List.foldl_cons, ih, sumQ_addW]
      have : (sumW (p :: rest) : ℚ) = (p.2 : ℚ) + (sumW rest : ℚ) := by
        simp only [sumW, List.map_cons, List.sum_cons]
        push_cast
        ring
      rw [this]
      ring

theorem tag_fold_nonneg (t : Tags) (k : ℚ) (hk : 0 ≤ k) (acc : List (Nat × ℚ))
    (hacc : ∀ p ∈ acc, 0 ≤ p.2) :
    ∀ p ∈ t.foldl (fun a cw => addW a cw.1 ((cw.2 : ℚ) * k)) acc, 0 ≤ p.2 := by
  induction t generalizing acc with
  | nil => exact hacc
  | cons q rest ih =>
      simp only [List.foldl_cons]
      exact ih _ (addW_nonneg acc q.1 _ hacc (mul_nonneg (by positivity) hk))

theorem sumQ_blend_fold (inputs : List (ℚ × Tags)) (total : ℚ)
    (acc : List (Nat × ℚ)) :
    (((inputs.foldl (fun acc vt =>
        vt.2.foldl (fun a cw => addW a cw.1 ((cw.2 : ℚ) * (vt.1 / total))) acc) acc)).map
          Prod.snd).sum =
      (acc.map Prod.snd).sum +
        (inputs.map fun vt => (sumW vt.2 : ℚ) * (vt.1 / total)).sum := by
  induction inputs generalizing acc with
  | nil => simp
  | cons vt rest ih =>
      simp only [List.foldl_cons, List.map_cons, List.sum_cons, ih, sumQ_tag_fold]
      ring

theorem blend_fold_nonneg (inputs : List (ℚ × Tags)) (total : ℚ) (htot : 0 < total)
    (hv : ∀ vt ∈ inputs, 0 ≤ vt.1) (acc : List (Nat × ℚ))
    (hacc : ∀ p ∈ acc, 0 ≤ p.2) :
    ∀ p ∈ inputs.foldl (fun acc vt =>
        vt.2.foldl (fun a cw => addW a cw.1 ((cw.2 : ℚ) * (vt.1 / total))) acc) acc,
      0 ≤ p.2 := by
  induction inputs generalizing acc with
  | nil => exact hacc
  | cons vt rest ih =>
      simp only [List.foldl_cons]
      refine ih (fun r hr => hv r (List.mem_cons_of_mem vt hr)) _ ?_
      refine tag_fold_nonneg vt.2 _ ?_ acc hacc
      have := hv vt (List.mem_cons_self vt rest)
      positivity

/-- Truncating and pruning the blended accumulator only lowers the weight
sum, provided all accumulated weights are non-negative. -/
theorem sumW_blend_prune_le (acc : List (Nat × ℚ)) (T : Nat)
    (hacc : ∀ p ∈ acc, 0 ≤ p.2) :
    ((sumW (acc.filterMap fun p =>
        if (T : ℤ) ≤ pyInt p.2 then some (p.1, (pyInt p.2).toNat) else none) : Nat) : ℚ) ≤
      (acc.map Prod.snd).sum := by
  induction acc with
  | nil => simp [sumW]
  | cons p rest ih =>
      have hp := hacc p (List.mem_cons_self p rest)
      have hrest := fun r hr => hacc r (List.mem_cons_of_mem p hr)
      simp only [List.filterMap_cons, List.map_cons, List.sum_cons]
      by_cases hk : (T : ℤ) ≤ pyInt p.2
      · rw [if_pos hk]
        have hfl : ((((pyInt p.2).toNat : Nat)) : ℚ) ≤ p.2 := by
          unfold pyInt
          rw [if_pos hp]
          have h1 : (0 : ℤ) ≤ ⌊p.2⌋ := Int.floor_nonneg.2 hp
          have h2 : ((⌊p.2⌋ : ℤ) : ℚ) ≤ p.2 := Int.floor_le p.2
          calc (((⌊p.2⌋.toNat : Nat)) : ℚ) = ((⌊p.2⌋ : ℤ) : ℚ) := by
                exact_mod_cast Int.toNat_of_nonneg h1
            _ ≤ p.2 := h2
        have hsum : ((sumW ((p.1, (pyInt p.2).toNat) ::
            (rest.filterMap fun p =>
              if (T : ℤ) ≤ pyInt p.2 then some (p.1, (pyInt p.2).toNat) else none)) : Nat) : ℚ) =
            (((pyInt p.2).toNat : Nat) : ℚ) +
              ((sumW (rest.filterMap fun p =>
                if (T : ℤ) ≤ pyInt p.2 then some (p.1, (pyInt p.2).toNat) else none) : Nat) : ℚ) := by
          simp only [sumW, List.map_cons, List.sum_cons]
          push_cast
          ring
        rw [hsum]
        exact add_le_add hfl (ih hrest)
      · rw [if_neg hk]
        calc ((sumW (rest.filterMap fun p =>
              if (T : ℤ) ≤ pyInt p.2 then some (p.1, (pyInt p.2).toNat) else none) : Nat) : ℚ)
            ≤ (rest.map Prod.snd).sum := ih hrest
          _ ≤ p.2 + (rest.map Prod.snd).sum := by linarith

theorem list_sum_map_le_q {α : Type} (l : List α) (f g : α → ℚ)
    (h : ∀ x ∈ l, f x ≤ g x) : (l.map f).sum ≤ (l.map g).sum := by
  induction l with
  | nil => simp
  | cons a rest ih =>
      simp only [List.map_cons, List.sum_cons]
      exact add_le_add (h a (List.mem_cons_self a rest))
        (ih fun x hx => h x (List.mem_cons_of_mem a hx))

theorem list_sum_map_mul_left_q {α : Type} (l : List α) (b : ℚ) (f : α → ℚ) :
    (l.map fun x => b * f x).sum = b * (l.map f).sum := by
  induction l with
  | nil => simp
  | cons a rest ih =>
      simp only [List.map_cons, List.sum_cons, ih]
      ring

/-- The explicit weights produced by `blend_tags` sum to at most
`TAG_SCALE` when every input does and all values are non-negative. -/
theorem blend_tags_sumW_le (inputs : List (ℚ × Tags))
    (hv : ∀ vt ∈ inputs, 0 ≤ vt.1) (hw : ∀ vt ∈ inputs, sumW vt.2 ≤ TAG_SCALE) :
    sumW (UtxoModel.blend_tags inputs) ≤ TAG_SCALE := by
  unfold UtxoModel.blend_tags
  simp only []
  by_cases h0 : (inputs.map Prod.fst).sum = 0
  · rw [if_pos h0]
    simp [sumW]
  · rw [if_neg h0]
    have hnn : 0 ≤ (inputs.map Prod.fst).sum := by
      apply List.sum_nonneg
      intro x hx
      rcases List.mem_map.1 hx with ⟨vt, hvt, rfl⟩
      exact hv vt hvt
    have htot : 0 < (inputs.map Prod.fst).sum := lt_of_le_of_ne hnn (Ne.symm h0)
    have hsuff : ∀ n : Nat, ((n : ℕ) : ℚ) ≤ ((TAG_SCALE : ℕ) : ℚ) → n ≤ TAG_SCALE := by
      intro n h
      exact_mod_cast h
    apply hsuff
    calc ((sumW ((inputs.foldl (fun acc vt =>
            vt.2.foldl (fun a cw => addW a cw.1
              ((cw.2 : ℚ) * (vt.1 / (inputs.map Prod.fst).sum))) acc) []).filterMap fun p =>
            if (UtxoModel.TAG_PRUNE_THRESHOLD : ℤ) ≤ pyInt p.2 then
              some (p.1, (pyInt p.2).toNat) else none) : ℕ) : ℚ)
        ≤ (((inputs.foldl (fun acc vt =>
            vt.2.foldl (fun a cw => addW a cw.1
              ((cw.2 : ℚ) * (vt.1 / (inputs.map Prod.fst).sum))) acc) [])).map Prod.snd).sum :=
          sumW_blend_prune_le _ _
            (blend_fold_nonneg inputs _ htot hv [] (by intro p hp; cases hp))
      _ = (inputs.map fun vt => (sumW vt.2 : ℚ) * (vt.1 / (inputs.map Prod.fst).sum)).sum := by
          rw [sumQ_blend_fold]
          simp
      _ ≤ (inputs.map fun vt => (TAG_SCALE : ℚ) * (vt.1 / (inputs.map Prod.fst).sum)).sum := by
          apply list_sum_map_le_q
          intro vt hvt
          apply mul_le_mul_of_nonneg_right
          · exact_mod_cast hw vt hvt
          · exact div_nonneg (hv vt hvt) htot.le
      _ = ((TAG_SCALE : ℚ) / (inputs.map Prod.fst).sum) * (inputs.map Prod.fst).sum := by
          have hfun : (fun vt : ℚ × Tags => (TAG_SCALE : ℚ) * (vt.1 / (inputs.map Prod.fst).sum)) =
              fun vt : ℚ × Tags =>
                ((TAG_SCALE : ℚ) / (inputs.map Prod.fst).sum) * vt.1 := by
            funext vt
            ring
          rw [hfun, list_sum_map_mul_left_q]
      _ = ((TAG_SCALE : ℕ) : ℚ) := by
          field_simp

/-- Claim C10: whenever every input vector's explicit weights sum to at
most `TAG_SCALE` (values non-negative where values enter), the outputs of
`blend_tags`, `apply_decay` and `mix_tags` also have explicit weight sums
at most `TAG_SCALE`, so the implicit background weight
`TAG_SCALE - sum(explicit)` is never negative. -/
theorem explicit_weight_sum_bounded :
    (∀ inputs : List (ℚ × Tags),
      (∀ vt ∈ inputs, 0 ≤ vt.1 ∧ sumW vt.2 ≤ TAG_SCALE) →
      sumW (UtxoModel.blend_tags inputs) ≤ TAG_SCALE) ∧
    (∀ (tags : Tags) (d : Nat), sumW tags ≤ TAG_SCALE →
      sumW (UtxoModel.apply_decay tags d) ≤ TAG_SCALE) ∧
    (∀ (self_tags inc : Tags) (sv iv : ℤ), 0 ≤ sv → 0 ≤ iv →
      sumW self_tags ≤ TAG_SCALE → sumW inc ≤ TAG_SCALE →
      sumW (AccountModel.mix_tags self_tags sv inc iv) ≤ TAG_SCALE) := by
  refine ⟨?_, ?_, ?_⟩
  · intro inputs h
    exact blend_tags_sumW_le inputs (fun vt hvt => (h vt hvt).1) (fun vt hvt => (h vt hvt).2)
  · intro tags d h
    rw [UtxoModel.apply_decay_eq_filterMap_utxo]
    exact le_trans (sumW_decayF_le _ _ _) h
  · intro self_tags inc sv iv hsv hiv h1 h2
    exact mix_tags_sumW_le self_tags inc sv iv hsv hiv h1 h2

/-- Witness for C10 at concrete vectors. -/
theorem explicit_weight_sum_bounded_witness :
    sumW (UtxoModel.blend_tags [(1, [(0, 500000)])]) ≤ TAG_SCALE ∧
    sumW (UtxoModel.apply_decay [(0, 500000)] 50000) ≤ TAG_SCALE ∧
    sumW (AccountModel.mix_tags [(0, 400000)] 2 [(1, 600000)] 3) ≤ TAG_SCALE :=
  ⟨explicit_weight_sum_bounded.1 [(1, [(0, 500000)])] (by
      intro vt hvt
      rcases List.mem_singleton.1 hvt with rfl
      exact ⟨by norm_num, by decide⟩),
   explicit_weight_sum_bounded.2.1 [(0, 500000)] 50000 (by decide),
   explicit_weight_sum_bounded.2.2 [(0, 400000)] [(1, 600000)] 2 3
     (by decide) (by decide) (by decide) (by decide)⟩

theorem sum_balances_set (l : List AccountModel.Account) (i : Nat)
    (a : AccountModel.Account) (h : i < l.length) :
    ((l.set i a).map AccountModel.Account.balance).sum =
      (l.map AccountModel.Account.balance).sum - (l.get ⟨i, h⟩).balance + a.balance := by
  induction l generalizing i with
  | nil => cases h
  | cons p rest ih =>
      cases i with
      | zero =>
          simp only [List.set, List.map_cons, List.sum_cons, List.get]
          ring
      | succ j =>
          have hj : j < rest.length := Nat.lt_of_succ_lt_succ h
          simp only [List.set, List.map_cons, List.sum_cons, List.get, ih j hj]
          ring

/-- Every return of `execute_transfer` is either `(false, 0, s)` with the
state untouched, or a success. -/
theorem AccountModel.execute_transfer_cases (s : AccountModel.SimState) (a b : Nat)
    (amt : ℤ) (d : Nat) (f : ℚ → ℚ) :
    AccountModel.execute_transfer s a b amt d f = (false, 0, s) ∨
      (AccountModel.execute_transfer s a b amt d f).1 = true := by
  unfold AccountModel.execute_transfer
  simp only []
  repeat' split
  all_goals first
    | exact Or.inl rfl
    | exact Or.inr rfl

/-- On success, `execute_transfer` moves exactly `fee` out of the balance
total and does not itself touch `total_fees`. -/
theorem AccountModel.execute_transfer_success_sum (s : AccountModel.SimState)
    (a b : Nat) (amt : ℤ) (d : Nat) (f : ℚ → ℚ)
    (h : (AccountModel.execute_transfer s a b amt d f).1 = true) :
    AccountModel.sumBalances (AccountModel.execute_transfer s a b amt d f).2.2 +
        (AccountModel.execute_transfer s a b amt d f).2.1 =
      AccountModel.sumBalances s ∧
    (AccountModel.execute_transfer s a b amt d f).2.2.total_fees = s.total_fees := by
  unfold AccountModel.execute_transfer at h ⊢
  simp only [] at h ⊢
  cases hga : s.accounts.get? a with
  | none =>
      rw [hga] at h
      simp at h
  | some snd =>
      rw [hga] at h
      simp only [] at h ⊢
      by_cases hgrd : snd.balance < amt ∨ amt ≤ 0
      · rw [if_pos hgrd] at h
        simp at h
      · rw [if_neg hgrd] at h
        simp only [if_neg hgrd]
        cases hgb : (s.accounts.set a
            { id := snd.id, balance := snd.balance - amt, agent_type := snd.agent_type,
              tags := snd.tags }).get? b with
        | none =>
            rw [hgb] at h
            simp at h
        | some rcv =>
            rw [hgb] at h
            simp only [] at h ⊢
            constructor
            · obtain ⟨ha, hget_a⟩ := List.get?_eq_some.1 hga
              obtain ⟨hb, hget_b⟩ := List.get?_eq_some.1 hgb
              unfold AccountModel.sumBalances
              simp only []
              rw [sum_balances_set _ b _ hb, sum_balances_set _ a _ ha, hget_a, hget_b]
              simp only []
              ring
            · trivial

/-- Conservation for the account model: over any operation sequence, live
balances plus recorded fees grow exactly by the minted values. -/
theorem AccountModel.runA_conservation (f : ℚ → ℚ) (d : Nat) (ops : List AccountModel.AOp) :
    ∀ s : AccountModel.SimState,
      AccountModel.sumBalances (AccountModel.runA f d s ops) +
          (AccountModel.runA f d s ops).total_fees =
        AccountModel.sumBalances s + s.total_fees + AccountModel.mintedTotal ops := by
  induction ops with
  | nil =>
      intro s
      simp [AccountModel.runA, AccountModel.mintedTotal]
  | cons op rest ih =>
      intro s
      cases op with
      | mint t b =>
          have hmint : AccountModel.sumBalances (AccountModel.mintAccount s t b) =
              AccountModel.sumBalances s + b := by
            unfold AccountModel.mintAccount AccountModel.sumBalances
            simp
          have hfees : (AccountModel.mintAccount s t b).total_fees = s.total_fees := rfl
          simp only [AccountModel.runA, AccountModel.mintedTotal]
          rw [ih, hmint, hfees]
          ring
      | xfer a b amt =>
          simp only [AccountModel.runA, AccountModel.mintedTotal]
          rcases AccountModel.execute_transfer_cases s a b amt d f with heq | htrue
          · rw [heq]
            simp only [if_neg (by simp : ¬ (false = true))]
            exact ih s
          · obtain ⟨hsum, hfees⟩ := AccountModel.execute_transfer_success_sum s a b amt d f htrue
            rw [if_pos htrue]
            rw [ih]
            have hsb : AccountModel.sumBalances
                { accounts := (AccountModel.execute_transfer s a b amt d f).2.2.accounts,
                  cluster_wealth := (AccountModel.execute_transfer s a b amt d f).2.2.cluster_wealth,
                  total_fees := (AccountModel.execute_transfer s a b amt d f).2.2.total_fees +
                    (AccountModel.execute_transfer s a b amt d f).2.1 } =
                AccountModel.sumBalances (AccountModel.execute_transfer s a b amt d f).2.2 := rfl
            rw [hsb]
            simp only []
            rw [hfees] at *
            linarith [hsum]

namespace UtxoModel

theorem insertDesc_perm (u : UTXO) (l : List UTXO) :
    List.Perm (insertDesc u l) (u :: l) := by
  induction l with
  | nil => exact List.Perm.refl _
  | cons v rest ih =>
      unfold insertDesc
      by_cases h : v.value ≤ u.value
      · rw [if_pos h]
      · rw [if_neg h]
        exact List.Perm.trans (List.Perm.cons v ih) (List.Perm.swap u v rest)

theorem sortDesc_perm (l : List UTXO) : List.Perm (sortDesc l) l := by
  induction l with
  | nil => exact List.Perm.refl _
  | cons u rest ih =>
      exact List.Perm.trans (insertDesc_perm u (sortDesc rest)) (List.Perm.cons u ih)

theorem selectGreedy_spec (l : List UTXO) (target : ℚ) :
    ∀ acc : ℚ, List.Sublist (selectGreedy l target acc).1 l ∧
      (selectGreedy l target acc).2 = acc + totalValue (selectGreedy l target acc).1 := by
  induction l with
  | nil =>
      intro acc
      constructor
      · exact List.Sublist.refl _
      · simp [selectGreedy, totalValue]
  | cons u rest ih =>
      intro acc
      unfold selectGreedy
      simp only []
      by_cases h : target ≤ acc + u.value
      · rw [if_pos h]
        constructor
        · exact List.Sublist.cons₂ u (List.nil_sublist rest)
        · simp [totalValue]
      · rw [if_neg h]
        obtain ⟨hs, hv⟩ := ih (acc + u.value)
        constructor
        · exact List.Sublist.cons₂ u hs
        · simp only [totalValue, List.map_cons, List.sum_cons] at hv ⊢
          rw [hv]
          ring

theorem addMore_spec (icw : List (Nat × ℚ)) (f : ℚ → ℚ) (amt : ℚ) (rem : List UTXO) :
    ∀ (sel : List UTXO) (v fe ne : ℚ), v = totalValue sel → ne = amt + fe →
      (addMore icw f amt rem (sel, v, fe, ne)).2.1 =
        totalValue (addMore icw f amt rem (sel, v, fe, ne)).1 ∧
      (addMore icw f amt rem (sel, v, fe, ne)).2.2.2 =
        amt + (addMore icw f amt rem (sel, v, fe, ne)).2.2.1 ∧
      ∃ extra, List.Sublist extra rem ∧
        (addMore icw f amt rem (sel, v, fe, ne)).1 = sel ++ extra := by
  induction rem with
  | nil =>
      intro sel v fe ne hv hn
      refine ⟨hv, hn, [], List.nil_sublist _, ?_⟩
      show sel = sel ++ []
      exact (List.append_nil sel).symm
  | cons u rest ih =>
      intro sel v fe ne hv hn
      unfold addMore
      simp only []
      have hv' : v + u.value = totalValue (sel ++ [u]) := by
        simp [totalValue, hv]
      by_cases h : v + u.value < amt + amt * f (compute_effective_wealth (sel ++ [u]) icw) / 10000
      · rw [if_pos h]
        obtain ⟨h1, h2, extra, hex, heq⟩ := ih (sel ++ [u]) _ _ _ hv' rfl
        refine ⟨h1, h2, u :: extra, List.Sublist.cons₂ u hex, ?_⟩
        rw [heq]
        simp
      · rw [if_neg h]
        exact ⟨hv', rfl, [u], List.Sublist.cons₂ u (List.nil_sublist rest), rfl⟩

theorem utxo_id_inj (l : List UTXO) (hnd : (l.map UTXO.id).Nodup) :
    ∀ u ∈ l, ∀ v ∈ l, u.id = v.id → u = v := by
  induction l with
  | nil => intro u hu; cases hu
  | cons h rest ih =>
      simp only [List.map_cons, List.nodup_cons] at hnd
      intro u hu v hv he
      rcases List.mem_cons.1 hu with rfl | hu'
      · rcases List.mem_cons.1 hv with rfl | hv'
        · rfl
        · have hmem : u.id ∈ rest.map UTXO.id := by
            rw [he]
            exact List.mem_map_of_mem UTXO.id hv'
          exact absurd hmem hnd.1
      · rcases List.mem_cons.1 hv with rfl | hv'
        · have hmem : v.id ∈ rest.map UTXO.id := by
            rw [← he]
            exact List.mem_map_of_mem UTXO.id hu'
          exact absurd hmem hnd.1
        · exact ih hnd.2 u hu' v hv' he

theorem totalValue_filter_ne (l : List UTXO) (u : UTXO)
    (hnd : (l.map UTXO.id).Nodup) (hu : u ∈ l) :
    totalValue (l.filter fun v => v.id ≠ u.id) = totalValue l - u.value := by
  induction l with
  | nil => cases hu
  | cons h rest ih =>
      simp only [List.map_cons, List.nodup_cons] at hnd
      by_cases hh : h.id = u.id
      · have hhu : h = u := by
          rcases List.mem_cons.1 hu with rfl | hu'
          · rfl
          · have hmem : h.id ∈ rest.map UTXO.id := by
              rw [hh]
              exact List.mem_map_of_mem UTXO.id hu'
            exact absurd hmem hnd.1
        subst hhu
        have hfilter : (h :: rest).filter (fun v => v.id ≠ h.id) = rest := by
          rw [List.filter_cons_of_neg (by simp)]
          apply List.filter_eq_self.2
          intro v hv
          simp only [ne_eq, decide_eq_true_eq]
          intro he
          have hmem : h.id ∈ rest.map UTXO.id := by
            rw [← he]
            exact List.mem_map_of_mem UTXO.id hv
          exact hnd.1 hmem
        rw [hfilter]
        simp [totalValue]
      · have hu' : u ∈ rest := by
          rcases List.mem_cons.1 hu with rfl | hu'
          · exact absurd rfl hh
          · exact hu'
        rw [List.filter_cons_of_pos (by simp [hh])]
        simp only [totalValue, List.map_cons, List.sum_cons] at ih ⊢
        rw [ih hnd.2 hu']
        ring

theorem spendAll_spec (sel : List UTXO) :
    ∀ s : SimState, (s.utxos.map UTXO.id).Nodup → (∀ u ∈ sel, u ∈ s.utxos) →
      (sel.map UTXO.id).Nodup →
      totalValue (sel.foldl (fun acc u => spendUTXO acc u.id) s).utxos =
        totalValue s.utxos - totalValue sel ∧
      (sel.foldl (fun acc u => spendUTXO acc u.id) s).total_fees = s.total_fees ∧
      (sel.foldl (fun acc u => spendUTXO acc u.id) s).next_id = s.next_id := by
  induction sel with
  | nil =>
      intro s _ _ _
      refine ⟨?_, rfl, rfl⟩
      simp [totalValue]
  | cons u rest ih =>
      intro s hnd hmem hselnd
      simp only [List.map_cons, List.nodup_cons] at hselnd
      simp only [List.foldl_cons]
      have hmemu : u ∈ s.utxos := hmem u (List.mem_cons_self u rest)
      have hnd' : (((spendUTXO s u.id).utxos).map UTXO.id).Nodup := by
        unfold spendUTXO
        simp only []
        exact ((List.filter_sublist _).map UTXO.id).nodup hnd
      have hmem' : ∀ v ∈ rest, v ∈ (spendUTXO s u.id).utxos := by
        intro v hv
        unfold spendUTXO
        simp only [List.mem_filter]
        refine ⟨hmem v (List.mem_cons_of_mem u hv), ?_⟩
        simp only [ne_eq, decide_eq_true_eq]
        intro he
        have hmemid : u.id ∈ rest.map UTXO.id := by
          rw [← he]
          exact List.mem_map_of_mem UTXO.id hv
        exact hselnd.1 hmemid
      obtain ⟨hT, hF, hN⟩ := ih (spendUTXO s u.id) hnd' hmem' hselnd.2
      refine ⟨?_, hF, hN⟩
      rw [hT]
      have hspend : totalValue (spendUTXO s u.id).utxos = totalValue s.utxos - u.value := by
        unfold spendUTXO
        simp only []
        exact totalValue_filter_ne s.utxos u hnd hmemu
      rw [hspend]
      simp only [totalValue, List.map_cons, List.sum_cons]
      ring

theorem createUTXO_spec (s : SimState) (v : ℚ) (t : Tags) (o : Nat) :
    totalValue (createUTXO s v t o).utxos = totalValue s.utxos + v ∧
      (createUTXO s v t o).total_fees = s.total_fees := by
  constructor
  · unfold createUTXO
    simp [totalValue]
  · rfl

theorem mem_nodup_of_sublist_sort (l m : List UTXO) (h : List.Sublist l (sortDesc m)) :
    (∀ u ∈ l, u ∈ m) ∧ ((m.map UTXO.id).Nodup → (l.map UTXO.id).Nodup) := by
  have hp := sortDesc_perm m
  constructor
  · intro u hu
    exact hp.mem_iff.1 (h.subset hu)
  · intro hnd
    have h1 : ((sortDesc m).map UTXO.id).Nodup := ((hp.map UTXO.id).nodup_iff).2 hnd
    exact (h.map UTXO.id).nodup h1

theorem st_spec (icw : List (Nat × ℚ)) (f : ℚ → ℚ) (amt est : ℚ) (m su : List UTXO)
    (hsub : List.Sublist su m) (hnd : (m.map UTXO.id).Nodup) :
    ∀ st : List UTXO × ℚ × ℚ × ℚ,
      st = (if (selectGreedy (sortDesc su) est 0).2 <
              amt + amt * f (compute_effective_wealth (selectGreedy (sortDesc su) est 0).1 icw)
                / 10000 then
              addMore icw f amt
                (sortDesc (su.filter fun u => ¬ u ∈ (selectGreedy (sortDesc su) est 0).1))
                ((selectGreedy (sortDesc su) est 0).1, (selectGreedy (sortDesc su) est 0).2,
                 amt * f (compute_effective_wealth (selectGreedy (sortDesc su) est 0).1 icw)
                   / 10000,
                 amt + amt * f (compute_effective_wealth (selectGreedy (sortDesc su) est 0).1 icw)
                   / 10000)
            else ((selectGreedy (sortDesc su) est 0).1, (selectGreedy (sortDesc su) est 0).2,
                 amt * f (compute_effective_wealth (selectGreedy (sortDesc su) est 0).1 icw)
                   / 10000,
                 amt + amt * f (compute_effective_wealth (selectGreedy (sortDesc su) est 0).1 icw)
                   / 10000)) →
      st.2.1 = totalValue st.1 ∧ st.2.2.2 = amt + st.2.2.1 ∧
        (∀ u ∈ st.1, u ∈ m) ∧ (st.1.map UTXO.id).Nodup := by
  intro st hst
  subst hst
  obtain ⟨hselsub, hselval⟩ := selectGreedy_spec (sortDesc su) est 0
  rw [zero_add] at hselval
  have hsu_nd : (su.map UTXO.id).Nodup := (hsub.map UTXO.id).nodup hnd
  have hfst := mem_nodup_of_sublist_sort _ su hselsub
  by_cases hc : (selectGreedy (sortDesc su) est 0).2 <
      amt + amt * f (compute_effective_wealth (selectGreedy (sortDesc su) est 0).1 icw) / 10000
  · rw [if_pos hc]
    obtain ⟨hA1, hA2, extra, hexsub, hexapp⟩ :=
      addMore_spec icw f amt
        (sortDesc (su.filter fun u => ¬ u ∈ (selectGreedy (sortDesc su) est 0).1))
        (selectGreedy (sortDesc su) est 0).1 (selectGreedy (sortDesc su) est 0).2
        (amt * f (compute_effective_wealth (selectGreedy (sortDesc su) est 0).1 icw) / 10000)
        (amt + amt * f (compute_effective_wealth (selectGreedy (sortDesc su) est 0).1 icw)
          / 10000)
        hselval rfl
    have hrem := mem_nodup_of_sublist_sort _
      (su.filter fun u => ¬ u ∈ (selectGreedy (sortDesc su) est 0).1) hexsub
    refine ⟨hA1, hA2, ?_, ?_⟩
    · intro u hu
      rw [hexapp] at hu
      rcases List.mem_append.1 hu with h | h
      · exact hsub.subset (hfst.1 u h)
      · have hmem := hrem.1 u h
        simp only [List.mem_filter, decide_eq_true_eq] at hmem
        exact hsub.subset hmem.1
    · rw [hexapp, List.map_append]
      rw [List.nodup_append]
      refine ⟨hfst.2 hsu_nd, ?_, ?_⟩
      · have hremnd : (((su.filter fun u =>
            ¬ u ∈ (selectGreedy (sortDesc su) est 0).1)).map UTXO.id).Nodup :=
          ((List.filter_sublist su).map UTXO.id).nodup hsu_nd
        exact hrem.2 hremnd
      · intro x hx1 hx2
        obtain ⟨u, hu, hux⟩ := List.mem_map.1 hx1
        obtain ⟨w, hw, hwx⟩ := List.mem_map.1 hx2
        have hum : u ∈ m := hsub.subset (hfst.1 u hu)
        have hwrem := hrem.1 w hw
        simp only [List.mem_filter, decide_eq_true_eq] at hwrem
        have hwm : w ∈ m := hsub.subset hwrem.1
        have huw : u = w := utxo_id_inj m hnd u hum w hwm (by rw [hux, hwx])
        exact hwrem.2 (huw ▸ hu)
  · rw [if_neg hc]
    exact ⟨hselval, rfl, fun u hu => hsub.subset (hfst.1 u hu), hfst.2 hsu_nd⟩

theorem finalize_bound (s : SimState) (recv sndr : Nat) (amt : ℚ)
    (st : List UTXO × ℚ × ℚ × ℚ) (tg : Tags)
    (hnd : (s.utxos.map UTXO.id).Nodup)
    (hv2 : st.2.1 = totalValue st.1)
    (hne : st.2.2.2 = amt + st.2.2.1)
    (hmem : ∀ u ∈ st.1, u ∈ s.utxos)
    (hseln : (st.1.map UTXO.id).Nodup)
    (hge : ¬ st.2.1 < st.2.2.2) :
    totalValue
        (if 1 / 100 < st.2.1 - st.2.2.2 then
          createUTXO
            (createUTXO (List.foldl (fun acc u => spendUTXO acc u.id) s st.1) amt tg recv)
            (st.2.1 - st.2.2.2) tg sndr
        else
          createUTXO (List.foldl (fun acc u => spendUTXO acc u.id) s st.1) amt tg recv).utxos +
      ((if 1 / 100 < st.2.1 - st.2.2.2 then
          createUTXO
            (createUTXO (List.foldl (fun acc u => spendUTXO acc u.id) s st.1) amt tg recv)
            (st.2.1 - st.2.2.2) tg sndr
        else
          createUTXO (List.foldl (fun acc u => spendUTXO acc u.id) s st.1) amt tg
            recv).total_fees +
        st.2.2.1) ≤
      totalValue s.utxos + s.total_fees ∧
    totalValue s.utxos + s.total_fees ≤
      totalValue
          (if 1 / 100 < st.2.1 - st.2.2.2 then
            createUTXO
              (createUTXO (List.foldl (fun acc u => spendUTXO acc u.id) s st.1) amt tg recv)
              (st.2.1 - st.2.2.2) tg sndr
          else
            createUTXO (List.foldl (fun acc u => spendUTXO acc u.id) s st.1) amt tg
              recv).utxos +
        ((if 1 / 100 < st.2.1 - st.2.2.2 then
            createUTXO
              (createUTXO (List.foldl (fun acc u => spendUTXO acc u.id) s st.1) amt tg recv)
              (st.2.1 - st.2.2.2) tg sndr
          else
            createUTXO (List.foldl (fun acc u => spendUTXO acc u.id) s st.1) amt tg
              recv).total_fees +
          st.2.2.1) +
        1 / 100 := by
  obtain ⟨hT, hF, hN⟩ := spendAll_spec st.1 s hnd hmem hseln
  obtain ⟨hT2, hF2⟩ :=
    createUTXO_spec (List.foldl (fun acc u => spendUTXO acc u.id) s st.1) amt tg recv
  have hge' := not_lt.1 hge
  by_cases hc : 1 / 100 < st.2.1 - st.2.2.2
  · obtain ⟨hT3, hF3⟩ :=
      createUTXO_spec
        (createUTXO (List.foldl (fun acc u => spendUTXO acc u.id) s st.1) amt tg recv)
        (st.2.1 - st.2.2.2) tg sndr
    simp only [if_pos hc]
    rw [hT3, hT2, hT, hF3, hF2, hF]
    constructor
    · linarith
    · linarith
  · simp only [if_neg hc]
    rw [hT2, hT, hF2, hF]
    have hcle := not_lt.1 hc
    constructor
    · linarith
    · linarith

theorem finalize_bound4 (s : SimState) (recv sndr : Nat) (amt : ℚ)
    (sel : List UTXO) (v fe ne : ℚ) (tg : Tags)
    (hnd : (s.utxos.map UTXO.id).Nodup)
    (hv2 : v = totalValue sel)
    (hne : ne = amt + fe)
    (hmem : ∀ u ∈ sel, u ∈ s.utxos)
    (hseln : (sel.map UTXO.id).Nodup)
    (hge : ¬ v < ne) :
    totalValue
        (if 1 / 100 < v - ne then
          createUTXO (createUTXO (List.foldl (fun acc u => spendUTXO acc u.id) s sel) amt tg recv)
            (v - ne) tg sndr
        else
          createUTXO (List.foldl (fun acc u => spendUTXO acc u.id) s sel) amt tg recv).utxos +
      ((if 1 / 100 < v - ne then
          createUTXO (createUTXO (List.foldl (fun acc u => spendUTXO acc u.id) s sel) amt tg recv)
            (v - ne) tg sndr
        else
          createUTXO (List.foldl (fun acc u => spendUTXO acc u.id) s sel) amt tg
            recv).total_fees +
        fe) ≤
      totalValue s.utxos + s.total_fees ∧
    totalValue s.utxos + s.total_fees ≤
      totalValue
          (if 1 / 100 < v - ne then
            createUTXO
              (createUTXO (List.foldl (fun acc u => spendUTXO acc u.id) s sel) amt tg recv)
              (v - ne) tg sndr
          else
            createUTXO (List.foldl (fun acc u => spendUTXO acc u.id) s sel) amt tg
              recv).utxos +
        ((if 1 / 100 < v - ne then
            createUTXO
              (createUTXO (List.foldl (fun acc u => spendUTXO acc u.id) s sel) amt tg recv)
              (v - ne) tg sndr
          else
            createUTXO (List.foldl (fun acc u => spendUTXO acc u.id) s sel) amt tg
              recv).total_fees +
          fe) +
        1 / 100 :=
  finalize_bound s recv sndr amt (sel, v, fe, ne) tg hnd hv2 hne hmem hseln hge


theorem transfer_value_bound (s : SimState) (a b : Nat) (amt : ℚ)
    (hnd : (s.utxos.map UTXO.id).Nodup)
    (hsucc : (transfer s a b amt).1 = true) :
    totalValue (transfer s a b amt).2.utxos + (transfer s a b amt).2.total_fees ≤
        totalValue s.utxos + s.total_fees ∧
      totalValue s.utxos + s.total_fees ≤
        totalValue (transfer s a b amt).2.utxos + (transfer s a b amt).2.total_fees
          + 1/100 := by
  unfold transfer at hsucc ⊢
  revert hsucc
  simp only []
  split
  · intro h
    simp at h
  · rename_i hC1
    split
    · intro h
      simp at h
    · rename_i hC2
      split
      · rename_i hC3
        split
        · intro h
          simp at h
        · rename_i hC4
          intro _
          have hprops := st_spec s.initial_cluster_wealth s.fee_config.rate_bps amt
            (amt + amt * s.fee_config.r_max_bps / 10000) s.utxos
            (s.utxos.filter fun u => u.owner = a)
            (List.filter_sublist _) hnd _ (if_pos hC3).symm
          simp only []
          exact finalize_bound s b a amt _ _ hnd hprops.1 hprops.2.1 hprops.2.2.1
            hprops.2.2.2 hC4
      · rename_i hC3
        intro _
        simp only []
        obtain ⟨hselsub, hselval⟩ := selectGreedy_spec
          (sortDesc (s.utxos.filter fun u => u.owner = a))
          (amt + amt * s.fee_config.r_max_bps / 10000) 0
        rw [zero_add] at hselval
        have hfst := mem_nodup_of_sublist_sort _ _ hselsub
        have hsu_nd : ((s.utxos.filter fun u => u.owner = a).map UTXO.id).Nodup :=
          ((List.filter_sublist _).map UTXO.id).nodup hnd
        exact finalize_bound4 s b a amt _ _ _ _ _ hnd hselval rfl
          (fun u hu => (List.filter_sublist _).subset (hfst.1 u hu)) (hfst.2 hsu_nd) hC3
theorem dust_transfer_eval :
    transfer
        { utxos := [{ id := 0, value := 100 + 1/200, tags := [(0, TAG_SCALE)], owner := 0 }],
          next_id := 1, next_cluster := 1,
          initial_cluster_wealth := [(0, 100 + 1/200)], decay_rate := 0,
          fee_config := { r_max_bps := 0, rate_bps := fun _ => 0 }, total_fees := 0 }
        0 1 100 =
      (true,
        { utxos := [{ id := 1, value := 100, tags := [(0, 1000000)], owner := 1 }],
          next_id := 2, next_cluster := 1,
          initial_cluster_wealth := [(0, 100 + 1/200)], decay_rate := 0,
          fee_config := { r_max_bps := 0, rate_bps := fun _ => 0 }, total_fees := 0 }) := by
  have htn : Int.toNat 1000000 = 1000000 := by decide
  norm_num [transfer, totalValue, sortDesc, insertDesc, selectGreedy, blend_tags, addW,
    apply_decay, pyInt, spendUTXO, createUTXO, TAG_SCALE, TAG_PRUNE_THRESHOLD,
    List.filterMap_cons, htn]

end UtxoModel

/-- Claim C1, counterexample: in the UTXO model conservation is not exact.
With a fee curve that charges no fee at all, transferring 100 out of a
single UTXO of value 100 + 1/200 succeeds, but the change 1/200 falls at
or below the dust threshold 0.01 and is silently destroyed: live value
plus recorded fees drops from 100 + 1/200 to 100. -/
theorem utxo_dust_breaks_conservation :
    (UtxoModel.transfer
        { utxos := [{ id := 0, value := 100 + 1/200, tags := [(0, TAG_SCALE)], owner := 0 }],
          next_id := 1, next_cluster := 1,
          initial_cluster_wealth := [(0, 100 + 1/200)], decay_rate := 0,
          fee_config := { r_max_bps := 0, rate_bps := fun _ => 0 }, total_fees := 0 }
        0 1 100).1 = true ∧
    UtxoModel.totalValue
        (UtxoModel.transfer
          { utxos := [{ id := 0, value := 100 + 1/200, tags := [(0, TAG_SCALE)], owner := 0 }],
            next_id := 1, next_cluster := 1,
            initial_cluster_wealth := [(0, 100 + 1/200)], decay_rate := 0,
            fee_config := { r_max_bps := 0, rate_bps := fun _ => 0 }, total_fees := 0 }
          0 1 100).2.utxos +
      (UtxoModel.transfer
          { utxos := [{ id := 0, value := 100 + 1/200, tags := [(0, TAG_SCALE)], owner := 0 }],
            next_id := 1, next_cluster := 1,
            initial_cluster_wealth := [(0, 100 + 1/200)], decay_rate := 0,
            fee_config := { r_max_bps := 0, rate_bps := fun _ => 0 }, total_fees := 0 }
          0 1 100).2.total_fees <
      UtxoModel.totalValue
          [{ id := 0, value := 100 + 1/200, tags := [(0, TAG_SCALE)], owner := 0 }] +
        (0 : ℚ) := by
  rw [UtxoModel.dust_transfer_eval]
  refine ⟨rfl, ?_⟩
  norm_num [UtxoModel.totalValue]

/-- Claim C1 (amended): conservation holds exactly in the account model —
for every operation sequence, every fee curve and every decay rate, live
balances plus recorded fees grow exactly by the minted values (fees are
moved, never created or destroyed).  In the UTXO model a successful
transfer (from a state with distinct UTXO ids) conserves live value plus
recorded fees only up to the dust threshold: the post-state total never
exceeds the pre-state total, and falls short of it by at most 0.01, the
change amount that the code silently drops instead of returning. -/
theorem conservation_amended :
    (∀ (f : ℚ → ℚ) (d : Nat) (ops : List AccountModel.AOp) (s : AccountModel.SimState),
        AccountModel.sumBalances (AccountModel.runA f d s ops) +
            (AccountModel.runA f d s ops).total_fees =
          AccountModel.sumBalances s + s.total_fees + AccountModel.mintedTotal ops) ∧
    (∀ (s : UtxoModel.SimState) (a b : Nat) (amt : ℚ),
        (s.utxos.map UtxoModel.UTXO.id).Nodup →
        (UtxoModel.transfer s a b amt).1 = true →
        UtxoModel.totalValue (UtxoModel.transfer s a b amt).2.utxos +
              (UtxoModel.transfer s a b amt).2.total_fees ≤
            UtxoModel.totalValue s.utxos + s.total_fees ∧
          UtxoModel.totalValue s.utxos + s.total_fees ≤
            UtxoModel.totalValue (UtxoModel.transfer s a b amt).2.utxos +
              (UtxoModel.transfer s a b amt).2.total_fees + 1/100) :=
  ⟨fun f d ops s => AccountModel.runA_conservation f d ops s,
   fun s a b amt hnd hsucc => UtxoModel.transfer_value_bound s a b amt hnd hsucc⟩

/-- Witness for the amended C1: a mint of 500 in the account model keeps the
books exactly balanced, and the dust-threshold transfer of 100 out of a
100 + 1/200 UTXO satisfies both sides of the 0.01-wide conservation
bracket. -/
theorem conservation_amended_witness :
    (AccountModel.sumBalances
          (AccountModel.runA (fun _ => 0) 0 AccountModel.emptyState
            [AccountModel.AOp.mint "w" 500]) +
        (AccountModel.runA (fun _ => 0) 0 AccountModel.emptyState
          [AccountModel.AOp.mint "w" 500]).total_fees =
      AccountModel.sumBalances AccountModel.emptyState +
        AccountModel.emptyState.total_fees +
        AccountModel.mintedTotal [AccountModel.AOp.mint "w" 500]) ∧
    ((([{ id := 0, value := 100 + 1/200, tags := [(0, TAG_SCALE)], owner := 0 }]
        : List UtxoModel.UTXO).map UtxoModel.UTXO.id).Nodup ∧
      (UtxoModel.transfer
          { utxos := [{ id := 0, value := 100 + 1/200, tags := [(0, TAG_SCALE)], owner := 0 }],
            next_id := 1, next_cluster := 1,
            initial_cluster_wealth := [(0, 100 + 1/200)], decay_rate := 0,
            fee_config := { r_max_bps := 0, rate_bps := fun _ => 0 }, total_fees := 0 }
          0 1 100).1 = true ∧
      (UtxoModel.totalValue
            (UtxoModel.transfer
              { utxos :=
                  [{ id := 0, value := 100 + 1/200, tags := [(0, TAG_SCALE)], owner := 0 }],
                next_id := 1, next_cluster := 1,
                initial_cluster_wealth := [(0, 100 + 1/200)], decay_rate := 0,
                fee_config := { r_max_bps := 0, rate_bps := fun _ => 0 }, total_fees := 0 }
              0 1 100).2.utxos +
          (UtxoModel.transfer
              { utxos :=
                  [{ id := 0, value := 100 + 1/200, tags := [(0, TAG_SCALE)], owner := 0 }],
                next_id := 1, next_cluster := 1,
                initial_cluster_wealth := [(0, 100 + 1/200)], decay_rate := 0,
                fee_config := { r_max_bps := 0, rate_bps := fun _ => 0 }, total_fees := 0 }
              0 1 100).2.total_fees ≤
          UtxoModel.totalValue
              [{ id := 0, value := 100 + 1/200, tags := [(0, TAG_SCALE)], owner := 0 }] +
            (0 : ℚ) ∧
        UtxoModel.totalValue
              [{ id := 0, value := 100 + 1/200, tags := [(0, TAG_SCALE)], owner := 0 }] +
            (0 : ℚ) ≤
          UtxoModel.totalValue
              (UtxoModel.transfer
                { utxos :=
                    [{ id := 0, value := 100 + 1/200, tags := [(0, TAG_SCALE)], owner := 0 }],
                  next_id := 1, next_cluster := 1,
                  initial_cluster_wealth := [(0, 100 + 1/200)], decay_rate := 0,
                  fee_config := { r_max_bps := 0, rate_bps := fun _ => 0 }, total_fees := 0 }
                0 1 100).2.utxos +
            (UtxoModel.transfer
                { utxos :=
                    [{ id := 0, value := 100 + 1/200, tags := [(0, TAG_SCALE)], owner := 0 }],
                  next_id := 1, next_cluster := 1,
                  initial_cluster_wealth := [(0, 100 + 1/200)], decay_rate := 0,
                  fee_config := { r_max_bps := 0, rate_bps := fun _ => 0 }, total_fees := 0 }
                0 1 100).2.total_fees + 1/100)) :=
  ⟨conservation_amended.1 (fun _ => 0) 0 [AccountModel.AOp.mint "w" 500]
      AccountModel.emptyState,
   by decide,
   by rw [UtxoModel.dust_transfer_eval],
   conservation_amended.2
      { utxos := [{ id := 0, value := 100 + 1/200, tags := [(0, TAG_SCALE)], owner := 0 }],
        next_id := 1, next_cluster := 1,
        initial_cluster_wealth := [(0, 100 + 1/200)], decay_rate := 0,
        fee_config := { r_max_bps := 0, rate_bps := fun _ => 0 }, total_fees := 0 }
      0 1 100 (by decide) (by rw [UtxoModel.dust_transfer_eval])⟩
